import Mathlib

/-!
Verification of the connet control plane against its source.

The development shallowly embeds the Go sources of keihaya-com/connet:
the keyed append-only log (logc/log.go, backed by the klevdb keyed-log
library whose interface semantics -- dense offsets, latest-record-by-key
lookup, in-order consumption -- are modelled directly), the control
server's relay handling (the control package: relayServer and relayConn),
the certificate templates (certc/self.go), the client's direct server
(client/direct.go), the wire error codes (pb/shared.proto and the
checked-in generated pb/shared.pb.go) and the CLI entry point
(cmd/connet).

Go maps are modelled as association lists (insert-or-replace putKey,
eraseKey, lookupKey); machine integers index lists so they appear as
Nat/Int; fallible operations return Option. All definitions come first,
all theorems follow.
-/

set_option linter.unusedSectionVars false

namespace Assoc

variable {K : Type} {V : Type} [DecidableEq K]

/-- Lookup in an association list: first binding wins (bindings are kept
unique by putKey/eraseKey, mirroring a Go map). -/
def lookupKey (k : K) : List (K × V) → Option V
  | [] => none
  | p :: rest => if p.1 = k then some p.2 else lookupKey k rest

/-- Go map assignment m[k] = v: replace the existing binding in place,
otherwise append a fresh binding. -/
def putKey (k : K) (v : V) : List (K × V) → List (K × V)
  | [] => [(k, v)]
  | p :: rest => if p.1 = k then (k, v) :: rest else p :: putKey k v rest

/-- Go delete(m, k): drop the binding for k, if any. -/
def eraseKey (k : K) : List (K × V) → List (K × V)
  | [] => []
  | p :: rest => if p.1 = k then rest else p :: eraseKey k rest

/-- The keys of an association list occur at most once. -/
def NodupKeys (l : List (K × V)) : Prop := (l.map Prod.fst).Nodup

end Assoc

namespace Logc

/-- One klevdb record as stored in the log: a key together with its value;
a tombstone (ValueEmpty=true in klevdb's TMessage) carries no value and is
modelled as none. -/
abbrev Log (K V : Type) := List (K × Option V)

/-- logc.Message: Offset, Key, Value, Delete. Value and Delete are joined
into a single Option (Delete=true exactly when value=none, the klevdb
ValueEmpty flag). Offsets are dense and assigned by position. -/
structure Message (K V : Type) where
  offset : Nat
  key : K
  value : Option V
  deriving DecidableEq, Repr

/-- The klevdb offset sentinels re-exported by logc. Only their identity
(distinct from every real offset, which is a Nat cast to Int) matters to
the embedded code. -/
def OffsetOldest : Int := -1

/-- klevdb OffsetNewest sentinel. -/
def OffsetNewest : Int := -2

/-- klevdb OffsetInvalid sentinel. -/
def OffsetInvalid : Int := -3

/-- The messages of a log starting at a base offset: record i of the log
carries offset base+i (klevdb assigns dense offsets in publish order). -/
def msgsFrom (base : Nat) : List (K × Option V) → List (Message K V)
  | [] => []
  | r :: rest => ⟨base, r.1, r.2⟩ :: msgsFrom (base + 1) rest

/-- All messages of a log, offsets starting at 0. -/
def msgsOf (log : Log K V) : List (Message K V) := msgsFrom 0 log

/-- kv.Put: publish a record with the value present; the new record goes
to the end of the log. -/
def Put (log : Log K V) (k : K) (v : V) : Log K V := log ++ [(k, some v)]

/-- kv.Del: publish a record with ValueEmpty=true (a tombstone). -/
def Del (log : Log K V) (k : K) : Log K V := log ++ [(k, none)]

variable {K V : Type} [DecidableEq K]

/-- klevdb GetByKey: the latest (highest-offset) record whose key is k,
starting record offsets at base. Later records take precedence. -/
def GetByKeyFrom (k : K) (base : Nat) : List (K × Option V) → Option (Message K V)
  | [] => none
  | r :: rest =>
    match GetByKeyFrom k (base + 1) rest with
    | some m => some m
    | none => if r.1 = k then some ⟨base, r.1, r.2⟩ else none

/-- klevdb GetByKey on a whole log. -/
def GetByKey (log : Log K V) (k : K) : Option (Message K V) := GetByKeyFrom k 0 log

/-- kv.Get: latest value for k; NotFound (none) when the key was never
written or when its latest record is a tombstone (ValueEmpty). -/
def Get (log : Log K V) (k : K) : Option V :=
  match GetByKey log k with
  | none => none
  | some m => m.value

/-- kv.Consume: a batch of up to 32 messages starting at the given offset
(klevdb ConsumeBlocking; tombstones included), and the next offset to
resume from. -/
def Consume (log : Log K V) (offset : Nat) : List (Message K V) × Nat :=
  let batch := ((msgsOf log).drop offset).take 32
  (batch, offset + batch.length)

/-- One step of the kv.Snapshot compaction loop body: a tombstone removes
the key from the summary map, a put stores the message (offset, key,
value) under its key. -/
def snapStep (sum : List (K × Message K V)) (m : Message K V) : List (K × Message K V) :=
  match m.value with
  | none => Assoc.eraseKey m.key sum
  | some _ => Assoc.putKey m.key m sum

/-- The kv.Snapshot consume loop: starting from the oldest offset, read
batches of up to 32 messages and fold them into the summary map until
maxOffset (the log length frozen at entry) is reached. -/
def SnapshotLoop (log : Log K V) (offset : Nat) (sum : List (K × Message K V)) :
    List (K × Message K V) :=
  if h : offset < log.length then
    SnapshotLoop log (offset + (((msgsOf log).drop offset).take 32).length)
      ((((msgsOf log).drop offset).take 32).foldl snapStep sum)
  else sum
termination_by log.length - offset
decreasing_by
  have hlen : ∀ (b : Nat) (rs : List (K × Option V)),
      (msgsFrom (K := K) (V := V) b rs).length = rs.length := by
    intro b rs
    induction rs generalizing b with
    | nil => rfl
    | cons r rest ih => simp [msgsFrom, ih]
  have hne : (msgsOf log).drop offset ≠ [] := by
    intro hc
    have hle := List.drop_eq_nil_iff.1 hc
    rw [msgsOf, hlen] at hle
    exact absurd hle (not_le.2 h)
  have hpos : 0 < (((msgsOf log).drop offset).take 32).length := by
    rw [List.length_take]
    exact lt_min (by norm_num) (List.length_pos.2 hne)
  omega

/-- kv.Snapshot: compact the log (latest non-tombstone record per key),
return the values sorted ascending by offset, together with the
next-offset cursor (klevdb NextOffset = the log length). -/
def Snapshot (log : Log K V) : List (Message K V) × Nat :=
  (List.insertionSort (fun a b => a.offset ≤ b.offset)
    ((SnapshotLoop log 0 []).map Prod.snd), log.length)

/-- A log operation: kv.Put or kv.Del. -/
inductive Op (K V : Type) where
  | put (k : K) (v : V)
  | del (k : K)
  deriving DecidableEq, Repr

/-- Apply one operation to the log. -/
def applyOp (log : Log K V) : Op K V → Log K V
  | .put k v => Put log k v
  | .del k => Del log k

/-- Apply a finite sequence of operations, oldest first. -/
def applyOps (log : Log K V) (ops : List (Op K V)) : Log K V :=
  ops.foldl applyOp log

/-- Follows the spec's words for Get: the effect on key k of the last
operation touching k, if any: some (some v) after a final Put(k,v),
some none after a final Delete(k), none when k was never written. -/
def specLastWrite (k : K) : List (Op K V) → Option (Option V)
  | [] => none
  | op :: rest =>
    match specLastWrite k rest with
    | some x => some x
    | none =>
      match op with
      | .put k2 v => if k2 = k then some (some v) else none
      | .del k2 => if k2 = k then some none else none

/-- Follows the spec's words: Get(k) is the value of the last Put(k,v)
when no later Delete(k) occurred, and NotFound (none) otherwise. -/
def specGet (ops : List (Op K V)) (k : K) : Option V :=
  match specLastWrite k ops with
  | some (some v) => some v
  | some none => none
  | none => none

/-- Whether the latest record for k exists and is not a tombstone. -/
def specAlive (log : Log K V) (k : K) : Bool :=
  match GetByKey log k with
  | some m => m.value.isSome
  | none => false

/-- A message is superseded when a later record (Put or Delete) exists
for the same key. -/
def superseded (log : Log K V) (m : Message K V) : Prop :=
  ∃ m2 ∈ msgsOf log, m.offset < m2.offset ∧ m2.key = m.key

instance (log : Log K V) (m : Message K V) : Decidable (superseded log m) := by
  unfold superseded
  infer_instance

end Logc

namespace Control

/-- model.Forward: an opaque name; equality is string equality. -/
abbrev Forward := String

/-- model.HostPort rendered to its string identity. -/
abbrev HostPort := String

/-- An x509 certificate, opaque to the control plane: only stored,
compared and echoed back (as its Raw DER). -/
abbrev Cert := Nat

/-- control.relayServerKey: (Forward, Hostport). -/
structure RelayServerKey where
  forward : Forward
  hostport : HostPort
  deriving DecidableEq, Repr

/-- model.Role. -/
inductive Role where
  | destination
  | source
  deriving DecidableEq, Repr

/-- control.relayClientKey: (Forward, Role, certificate Key). -/
structure RelayClientKey where
  forward : Forward
  role : Role
  key : String
  deriving DecidableEq, Repr

/-- pbr.ChangeType. -/
inductive ChangeType where
  | changeUnknown
  | changePut
  | changeDel
  deriving DecidableEq, Repr

/-- pbr.ClientsResp.Change as built by relayConn.runRelayClients:
forward, role, certificate key, change type, and the certificate DER on
a put. -/
structure ClientsRespChange where
  forward : Forward
  role : Role
  certificateKey : String
  change : ChangeType
  certificate : Option Cert
  deriving DecidableEq, Repr

/-- pbr.ClientsResp: the batched changes and the next offset. -/
structure ClientsResp where
  changes : List ClientsRespChange
  offset : Int
  deriving DecidableEq, Repr

/-- The change relayConn.runRelayClients builds from one log message:
ChangeDel on a tombstone, otherwise ChangePut carrying the certificate. -/
def mkClientsChange (m : Logc.Message RelayClientKey Cert) : ClientsRespChange :=
  match m.value with
  | none =>
    { forward := m.key.forward, role := m.key.role, certificateKey := m.key.key,
      change := .changeDel, certificate := none }
  | some c =>
    { forward := m.key.forward, role := m.key.role, certificateKey := m.key.key,
      change := .changePut, certificate := some c }

/-- One round of relayConn.runRelayClients: answer a ClientsReq at the
given offset from the relay-clients log (Snapshot when the relay asks
from OffsetOldest, Consume otherwise), keeping only changes whose
forward the relay's authentication allows. -/
def runRelayClientsStep (allow : Forward → Bool) (log : Logc.Log RelayClientKey Cert)
    (reqOffset : Int) : ClientsResp :=
  let pair := if reqOffset = Logc.OffsetOldest then Logc.Snapshot log
              else Logc.Consume log reqOffset.toNat
  { offset := Int.ofNat pair.2,
    changes := (pair.1.filter (fun m => allow m.key.forward)).map mkClientsChange }

/-- pbr.ServersResp.Change: the forward served, the server certificate
DER, and the change type. -/
structure ServersRespChange where
  server : Forward
  serverCertificate : Cert
  change : ChangeType
  deriving DecidableEq, Repr

/-- pbr.ServersResp. -/
structure ServersResp where
  changes : List ServersRespChange
  offset : Int
  deriving DecidableEq, Repr

/-- The control server's durable state touched by runRelayServers: the
relay-servers log and the relay-server-offsets log. -/
structure ControlState where
  relayServers : Logc.Log RelayServerKey Cert
  relayServerOffsets : Logc.Log HostPort Int
  deriving DecidableEq, Repr

/-- One durable write issued by relayConn.runRelayServers. Each is a
separate klevdb publish: atomic on its own, not with its neighbours. -/
inductive PrimWrite where
  | putServer (k : RelayServerKey) (c : Cert)
  | delServer (k : RelayServerKey)
  | putOffset (hp : HostPort) (o : Int)
  deriving DecidableEq, Repr

/-- Apply one durable write. -/
def applyPrim (s : ControlState) : PrimWrite → ControlState
  | .putServer k c => { s with relayServers := Logc.Put s.relayServers k c }
  | .delServer k => { s with relayServers := Logc.Del s.relayServers k }
  | .putOffset hp o => { s with relayServerOffsets := Logc.Put s.relayServerOffsets hp o }

/-- Apply a sequence of durable writes in order. A crash at any point
leaves exactly a prefix applied. -/
def applyPrims (s : ControlState) (ops : List PrimWrite) : ControlState :=
  ops.foldl applyPrim s

/-- The sequence of durable writes the body of relayConn.runRelayServers
performs for one ServersResp batch: one relayServers.Put/Del per change
in order, then a single separate setRelayServerOffset put. An unknown
change type aborts with an error before any further write (in
particular the offset is never recorded). -/
def batchOpsGo (hp : HostPort) (respOffset : Int) : List ServersRespChange → List PrimWrite
  | [] => [.putOffset hp respOffset]
  | ch :: rest =>
    match ch.change with
    | .changePut => .putServer ⟨ch.server, hp⟩ ch.serverCertificate :: batchOpsGo hp respOffset rest
    | .changeDel => .delServer ⟨ch.server, hp⟩ :: batchOpsGo hp respOffset rest
    | .changeUnknown => []

/-- The writes for one received ServersResp on relay hp's connection. -/
def runRelayServersBatch (hp : HostPort) (resp : ServersResp) : List PrimWrite :=
  batchOpsGo hp resp.offset resp.changes

/-- relayServer.getRelayServerOffset: the saved offset for the relay, or
OffsetOldest when none was ever recorded. -/
def getRelayServerOffset (s : ControlState) (hp : HostPort) : Int :=
  match Logc.Get s.relayServerOffsets hp with
  | none => Logc.OffsetOldest
  | some o => o

/-- The relay-servers records a list of writes appends. -/
def serverWrites (ops : List PrimWrite) : Logc.Log RelayServerKey Cert :=
  ops.filterMap fun op =>
    match op with
    | .putServer k c => some (k, some c)
    | .delServer k => some (k, none)
    | .putOffset _ _ => none

/-- relayServer's forwards index: forwardsCache (forward -> hostport ->
server cert) plus the forwardsOffset watermark, both guarded by one
read/write lock. -/
structure RSState where
  cache : List (Forward × List (HostPort × Cert))
  offset : Nat
  deriving DecidableEq, Repr

/-- relayServer.getForward: clone of the forward's inner map (nil when
absent) and the current watermark, read under the lock. -/
def getForward (s : RSState) (fwd : Forward) : List (HostPort × Cert) × Nat :=
  ((Assoc.lookupKey fwd s.cache).getD [], s.offset)

/-- The update closure of relayServer.run, one critical section: mutate
the cache for one consumed message, then advance forwardsOffset to
msg.Offset+1 -- the watermark moves only after the map mutation. -/
def updateForwards (s : RSState) (m : Logc.Message RelayServerKey Cert) : RSState :=
  let srv := (Assoc.lookupKey m.key.forward s.cache).getD []
  match m.value with
  | none =>
    let srv2 := Assoc.eraseKey m.key.hostport srv
    { cache := if srv2.isEmpty then Assoc.eraseKey m.key.forward s.cache
               else Assoc.putKey m.key.forward srv2 s.cache,
      offset := m.offset + 1 }
  | some c =>
    { cache := Assoc.putKey m.key.forward (Assoc.putKey m.key.hostport c srv) s.cache,
      offset := m.offset + 1 }

/-- One message of newRelayServer's cache-construction loop: fetch (or
create) the forward's inner map and store the hostport's certificate
(the Go zero value when absent -- snapshot messages always carry one). -/
def initForwardsStep (cache : List (Forward × List (HostPort × Cert)))
    (m : Logc.Message RelayServerKey Cert) : List (Forward × List (HostPort × Cert)) :=
  Assoc.putKey m.key.forward
    (Assoc.putKey m.key.hostport (m.value.getD 0)
      ((Assoc.lookupKey m.key.forward cache).getD [])) cache

/-- newRelayServer's cache construction from the snapshot messages:
group by forward, store each hostport's certificate. -/
def initForwardsCache (msgs : List (Logc.Message RelayServerKey Cert)) :
    List (Forward × List (HostPort × Cert)) :=
  msgs.foldl initForwardsStep []

/-- The index state right after newRelayServer: cache from Snapshot,
watermark at the snapshot's next offset. -/
def initRSState (log : Logc.Log RelayServerKey Cert) : RSState :=
  { cache := initForwardsCache (Logc.Snapshot log).1, offset := (Logc.Snapshot log).2 }

/-- The index state after relayServer.run has consumed the first i
records past the initial snapshot prefix of length n0 of the
relay-servers log; every point between two critical sections is such a
state, and getForward can run at any of them. -/
def runForwardsTrace (log : Logc.Log RelayServerKey Cert) (n0 i : Nat) : RSState :=
  (((Logc.msgsOf log).drop n0).take i).foldl updateForwards (initRSState (log.take n0))

/-- The observable content of the index at (forward, hostport). -/
def rsView (s : RSState) (f : Forward) (h : HostPort) : Option Cert :=
  Assoc.lookupKey h ((Assoc.lookupKey f s.cache).getD [])

/-- Well-formedness of the index: the outer map and every inner map have
unique keys (they model Go maps). -/
def RSWf (s : RSState) : Prop :=
  Assoc.NodupKeys s.cache ∧ ∀ p ∈ s.cache, Assoc.NodupKeys p.2

end Control

namespace Pb

/-- Error.Code as declared in pb/shared.proto (the protoc source of
truth for the generated Go). -/
inductive ErrorCode where
  | unknown
  | requestUnknown
  | authenticationFailed
  | relayInvalidCertificate
  | relayDestinationValidationFailed
  | relaySourceValidationFailed
  | destinationValidationFailed
  | destinationInvalidCertificate
  | sourceValidationFailed
  | sourceInvalidCertificate
  | destinationNotFound
  | destinationDialFailed
  deriving DecidableEq, Repr, Fintype

/-- The numeric code assigned to each Error.Code value by
pb/shared.proto. -/
def protoCodeValue : ErrorCode → Nat
  | .unknown => 0
  | .requestUnknown => 1
  | .authenticationFailed => 100
  | .relayInvalidCertificate => 200
  | .relayDestinationValidationFailed => 201
  | .relaySourceValidationFailed => 202
  | .destinationValidationFailed => 300
  | .destinationInvalidCertificate => 301
  | .sourceValidationFailed => 400
  | .sourceInvalidCertificate => 401
  | .destinationNotFound => 500
  | .destinationDialFailed => 501

/-- Error_Code as found in the checked-in generated file
pb/shared.pb.go (which declares itself generated from shared.proto). -/
inductive GenErrorCode where
  | unknown
  | requestUnknown
  | authenticationFailed
  | registrationFailed
  | listenerNotFound
  | listenerNotConnected
  | listenerRequestFailed
  | listenerResponseFailed
  | destinationNotFound
  | destinationDialFailed
  deriving DecidableEq, Repr, Fintype

/-- The numeric constants of pb/shared.pb.go's Error_Code. -/
def genCodeValue : GenErrorCode → Nat
  | .unknown => 0
  | .requestUnknown => 1
  | .authenticationFailed => 100
  | .registrationFailed => 200
  | .listenerNotFound => 300
  | .listenerNotConnected => 301
  | .listenerRequestFailed => 302
  | .listenerResponseFailed => 303
  | .destinationNotFound => 400
  | .destinationDialFailed => 401

end Pb

namespace Certc

/-- x509.ExtKeyUsage values used by certc. -/
inductive ExtKeyUsage where
  | serverAuth
  deriving DecidableEq, Repr

/-- Go x509.KeyUsage bit constants (1 shifted left by iota). -/
def keyUsageDigitalSignature : Nat := 1

/-- x509.KeyUsageContentCommitment. -/
def keyUsageContentCommitment : Nat := 2

/-- x509.KeyUsageKeyEncipherment. -/
def keyUsageKeyEncipherment : Nat := 4

/-- x509.KeyUsageCertSign. -/
def keyUsageCertSign : Nat := 32

/-- x509.KeyUsageCRLSign. -/
def keyUsageCRLSign : Nat := 64

/-- The fields of the x509.Certificate template that certc/self.go
fills in, with times as unix microseconds; keyAlgorithm records the
key-generation call used. -/
structure CertTemplate where
  serialNumber : Int
  notBefore : Int
  notAfter : Int
  basicConstraintsValid : Bool
  isCA : Bool
  keyUsage : Nat
  extKeyUsage : List ExtKeyUsage
  dnsNames : List String
  keyAlgorithm : String
  deriving DecidableEq, Repr

/-- Microseconds in 24 hours (time.Hour is modelled in microseconds to
match serial numbers from UnixMicro). -/
def microsPerDay : Int := 24 * 60 * 60 * 1000000

/-- certc.NewRoot's template: serial = time.Now().UnixMicro(), validity
NotBefore=now to NotAfter=now+90*24h, CA with digital-signature,
cert-sign and crl-sign usage, empty EKU; the key is generated with
ed25519.GenerateKey. -/
def NewRoot (nowMicro : Int) : CertTemplate :=
  { serialNumber := nowMicro
    notBefore := nowMicro
    notAfter := nowMicro + 90 * microsPerDay
    basicConstraintsValid := true
    isCA := true
    keyUsage := Nat.lor (Nat.lor keyUsageDigitalSignature keyUsageCertSign) keyUsageCRLSign
    extKeyUsage := []
    dnsNames := []
    keyAlgorithm := "ed25519" }

/-- certc.certType. -/
inductive CertType where
  | intermediate
  | server
  | client
  deriving DecidableEq, Repr

/-- certc.CertOpts. -/
structure CertOpts where
  domains : List String
  deriving DecidableEq, Repr

/-- Cert.new: the issued certificate's template. The base template has
BasicConstraintsValid=false, IsCA=false, zero KeyUsage and no EKU; the
switch on the certificate type then overrides per kind. -/
def CertNew (nowMicro : Int) (opts : CertOpts) (typ : CertType) : CertTemplate :=
  let base : CertTemplate :=
    { serialNumber := nowMicro
      notBefore := nowMicro
      notAfter := nowMicro + 90 * microsPerDay
      basicConstraintsValid := false
      isCA := false
      keyUsage := 0
      extKeyUsage := []
      dnsNames := opts.domains
      keyAlgorithm := "ed25519" }
  match typ with
  | .intermediate =>
    { base with
      basicConstraintsValid := true
      isCA := true
      keyUsage := Nat.lor (Nat.lor keyUsageDigitalSignature keyUsageCertSign) keyUsageCRLSign
      extKeyUsage := [] }
  | .server =>
    { base with
      keyUsage := Nat.lor (Nat.lor keyUsageDigitalSignature keyUsageKeyEncipherment)
        keyUsageContentCommitment
      extKeyUsage := [.serverAuth] }
  | .client =>
    { base with
      keyUsage := Nat.lor (Nat.lor keyUsageDigitalSignature keyUsageKeyEncipherment)
        keyUsageContentCommitment
      extKeyUsage := [] }

end Certc

namespace Client

/-- certc.Key: the certificate fingerprint string. -/
abbrev CertKey := String

/-- A rendezvous channel's identity (each make(chan) is fresh). -/
abbrev ChanId := Nat

/-- client.vClient: the expected client certificate and its one-shot
rendezvous channel. -/
structure VClient where
  cert : Nat
  ch : ChanId
  deriving DecidableEq, Repr

/-- client.vServer: the SNI name and the waiting clients keyed by
certificate key. -/
structure VServer where
  serverName : String
  clients : List (CertKey × VClient)
  deriving DecidableEq, Repr

/-- client.DirectServer's state: the vServers by name, a fresh-channel
allocator, and the set of closed channels. -/
structure DState where
  servers : List (String × VServer)
  nextCh : ChanId
  closed : List ChanId
  deriving DecidableEq, Repr

/-- A DirectServer with no registered servers. -/
def initDState : DState := { servers := [], nextCh := 0, closed := [] }

/-- DirectServer.addServerCert: (re)register a vServer with no waiting
clients under the certificate's first DNS name. -/
def addServerCert (s : DState) (name : String) : DState :=
  { s with servers := Assoc.putKey name { serverName := name, clients := [] } s.servers }

/-- vServer.dequeue: remove and return the waiter for the key, under the
server's lock. -/
def dequeue (vs : VServer) (key : CertKey) : VServer × Option VClient :=
  match Assoc.lookupKey key vs.clients with
  | some exp => ({ vs with clients := Assoc.eraseKey key vs.clients }, some exp)
  | none => (vs, none)

/-- DirectServer.expectConn: under the server's lock, close any prior
waiting channel for the same key and replace it with a fresh channel;
returns the fresh channel. (The Go code dereferences the server
unconditionally; an unknown server name is modelled as a no-op
returning none.) -/
def expectConn (s : DState) (name : String) (key : CertKey) (cert : Nat) :
    DState × Option ChanId :=
  match Assoc.lookupKey name s.servers with
  | none => (s, none)
  | some vs =>
    let closedPrior :=
      match Assoc.lookupKey key vs.clients with
      | some exp => [exp.ch]
      | none => []
    let vs2 := { vs with clients := Assoc.putKey key { cert := cert, ch := s.nextCh } vs.clients }
    ({ servers := Assoc.putKey name vs2 s.servers
       nextCh := s.nextCh + 1
       closed := s.closed ++ closedPrior }, some s.nextCh)

/-- What happens to an accepted inbound connection. -/
inductive ConnResult where
  | closeWithError (code : Nat)
  | delivered (ch : ChanId)
  deriving DecidableEq, Repr

/-- DirectServer.runConn on an accepted connection carrying the given
SNI and client-certificate key: unknown server closes with code 1;
dequeue (under the lock) removes the waiter before the connection is
sent on its channel, which is then closed; no waiter closes with
code 2 "client not found". -/
def runConn (s : DState) (name : String) (key : CertKey) : DState × ConnResult :=
  match Assoc.lookupKey name s.servers with
  | none => (s, .closeWithError 1)
  | some vs =>
    match dequeue vs key with
    | (vs2, some exp) =>
      ({ servers := Assoc.putKey name vs2 s.servers
         nextCh := s.nextCh
         closed := s.closed ++ [exp.ch] }, .delivered exp.ch)
    | (_, none) => (s, .closeWithError 2)

/-- The events that mutate a DirectServer. -/
inductive DEvent where
  | addServer (name : String)
  | expect (name : String) (key : CertKey) (cert : Nat)
  | run (name : String) (key : CertKey)
  deriving DecidableEq, Repr

/-- Apply one event (dropping the result). -/
def applyDEvent (s : DState) : DEvent → DState
  | .addServer name => addServerCert s name
  | .expect name key cert => (expectConn s name key cert).1
  | .run name key => (runConn s name key).1

/-- The DirectServer state reached by a sequence of events. -/
def runDEvents (events : List DEvent) : DState := events.foldl applyDEvent initDState

/-- Reachability invariant: every server's waiting map has unique keys
(at most one rendezvous channel per certificate key), and every waiting
channel is older than the allocator cursor. -/
def DInv (s : DState) : Prop :=
  (∀ p ∈ s.servers, Assoc.NodupKeys p.2.clients)
  ∧ ∀ p ∈ s.servers, ∀ q ∈ p.2.clients, q.2.ch < s.nextCh

end Client

namespace Cli

/-- The outside world as cmd main observes it: os.Args, whether
os.Stat succeeds on a file, whether toml.DecodeFile succeeds, how many
undecoded keys the metadata reports, and whether the server/client
subcommands return an error. -/
structure MainWorld where
  args : List String
  fileExists : String → Bool
  parseOk : Bool
  undecodedCount : Nat
  serverErr : Bool
  clientErr : Bool

/-- The argument rewrite at the top of main: connet FILE becomes
connet client FILE when the file exists. -/
def effectiveArgs (w : MainWorld) : List String :=
  match w.args with
  | [a0, a1] => if w.fileExists a1 then [a0, "client", a1] else [a0, a1]
  | other => other

/-- main's exit code: 1 on usage (argument count not 3 after the
rewrite), 2 when the config file fails to parse, then per subcommand:
server error 4, client error 5, check with undecoded keys 6, success 0,
unknown subcommand 3. -/
def connetMain (w : MainWorld) : Nat :=
  match effectiveArgs w with
  | [_, cmd, _] =>
    if w.parseOk = false then 2
    else if cmd = "server" then (if w.serverErr then 4 else 0)
    else if cmd = "client" then (if w.clientErr then 5 else 0)
    else if cmd = "check" then (if w.undecodedCount > 0 then 6 else 0)
    else 3
  | _ => 1

end Cli

namespace Assoc

variable {K : Type} {V : Type} [DecidableEq K]

theorem lookupKey_putKey_self (k : K) (v : V) (l : List (K × V)) :
    lookupKey k (putKey k v l) = some v := by
  induction l with
  | nil => simp [putKey, lookupKey]
  | cons p rest ih =>
    by_cases h : p.1 = k
    · rw [putKey, if_pos h, lookupKey, if_pos rfl]
    · rw [putKey, if_neg h, lookupKey, if_neg h, ih]

theorem lookupKey_putKey_ne (k k' : K) (v : V) (l : List (K × V)) (h : k ≠ k') :
    lookupKey k' (putKey k v l) = lookupKey k' l := by
  induction l with
  | nil => simp [putKey, lookupKey, h]
  | cons p rest ih =>
    by_cases hp : p.1 = k
    · rw [putKey, if_pos hp, lookupKey, if_neg h, lookupKey, hp, if_neg h]
    · rw [putKey, if_neg hp, lookupKey, lookupKey]
      by_cases hp' : p.1 = k'
      · rw [if_pos hp', if_pos hp']
      · rw [if_neg hp', if_neg hp', ih]

theorem lookupKey_eq_none_of_notMem_keys {k : K} {l : List (K × V)}
    (h : k ∉ l.map Prod.fst) : lookupKey k l = none := by
  induction l with
  | nil => rfl
  | cons p rest ih =>
    rw [List.map_cons] at h
    have h1 : p.1 ≠ k := fun hc => h (List.mem_cons.2 (Or.inl hc.symm))
    have h2 : k ∉ rest.map Prod.fst := fun hc => h (List.mem_cons.2 (Or.inr hc))
    rw [lookupKey, if_neg h1, ih h2]

theorem mem_keys_of_lookupKey_some {k : K} {v : V} {l : List (K × V)}
    (h : lookupKey k l = some v) : k ∈ l.map Prod.fst := by
  by_contra hc
  rw [lookupKey_eq_none_of_notMem_keys hc] at h
  exact Option.noConfusion h

theorem lookupKey_eraseKey_self (k : K) (l : List (K × V)) (hnd : NodupKeys l) :
    lookupKey k (eraseKey k l) = none := by
  induction l with
  | nil => rfl
  | cons p rest ih =>
    rw [NodupKeys, List.map_cons, List.nodup_cons] at hnd
    by_cases h : p.1 = k
    · rw [eraseKey, if_pos h]
      exact lookupKey_eq_none_of_notMem_keys (h ▸ hnd.1)
    · rw [eraseKey, if_neg h, lookupKey, if_neg h]
      exact ih hnd.2

theorem lookupKey_eraseKey_ne (k k' : K) (l : List (K × V)) (h : k ≠ k') :
    lookupKey k' (eraseKey k l) = lookupKey k' l := by
  induction l with
  | nil => rfl
  | cons p rest ih =>
    by_cases hp : p.1 = k
    · have hne : p.1 ≠ k' := fun hc => h (hp ▸ hc)
      rw [eraseKey, if_pos hp, lookupKey, if_neg hne]
    · rw [eraseKey, if_neg hp, lookupKey, lookupKey]
      by_cases hp' : p.1 = k'
      · rw [if_pos hp', if_pos hp']
      · rw [if_neg hp', if_neg hp', ih]

theorem nodupKeys_nil : NodupKeys ([] : List (K × V)) := by
  simp [NodupKeys]

theorem mem_keys_putKey {a k : K} {v : V} {l : List (K × V)}
    (h : a ∈ (putKey k v l).map Prod.fst) : a = k ∨ a ∈ l.map Prod.fst := by
  induction l with
  | nil =>
    rw [putKey, List.map_cons, List.map_nil] at h
    exact Or.inl (by simpa using h)
  | cons p rest ih =>
    by_cases hp : p.1 = k
    · rw [putKey, if_pos hp, List.map_cons] at h
      rcases List.mem_cons.1 h with h1 | h2
      · exact Or.inl h1
      · exact Or.inr (List.mem_cons.2 (Or.inr h2))
    · rw [putKey, if_neg hp, List.map_cons] at h
      rcases List.mem_cons.1 h with h1 | h2
      · exact Or.inr (List.mem_cons.2 (Or.inl h1))
      · rcases ih h2 with h3 | h4
        · exact Or.inl h3
        · exact Or.inr (List.mem_cons.2 (Or.inr h4))

theorem mem_keys_eraseKey {a k : K} {l : List (K × V)}
    (h : a ∈ (eraseKey k l).map Prod.fst) : a ∈ l.map Prod.fst := by
  induction l with
  | nil => simpa [eraseKey] using h
  | cons p rest ih =>
    by_cases hp : p.1 = k
    · rw [eraseKey, if_pos hp] at h
      exact List.mem_cons.2 (Or.inr h)
    · rw [eraseKey, if_neg hp, List.map_cons] at h
      rcases List.mem_cons.1 h with h1 | h2
      · exact List.mem_cons.2 (Or.inl h1)
      · exact List.mem_cons.2 (Or.inr (ih h2))

theorem nodupKeys_putKey (k : K) (v : V) {l : List (K × V)} (hnd : NodupKeys l) :
    NodupKeys (putKey k v l) := by
  induction l with
  | nil => simp [putKey, NodupKeys]
  | cons p rest ih =>
    rw [NodupKeys, List.map_cons, List.nodup_cons] at hnd
    by_cases hp : p.1 = k
    · rw [NodupKeys, putKey, if_pos hp, List.map_cons, List.nodup_cons]
      exact ⟨hp ▸ hnd.1, hnd.2⟩
    · rw [NodupKeys, putKey, if_neg hp, List.map_cons, List.nodup_cons]
      refine ⟨fun hmem => ?_, ih hnd.2⟩
      rcases mem_keys_putKey hmem with h1 | h2
      · exact hp h1
      · exact hnd.1 h2

theorem nodupKeys_eraseKey (k : K) {l : List (K × V)} (hnd : NodupKeys l) :
    NodupKeys (eraseKey k l) := by
  induction l with
  | nil => simpa [eraseKey] using hnd
  | cons p rest ih =>
    rw [NodupKeys, List.map_cons, List.nodup_cons] at hnd
    by_cases hp : p.1 = k
    · rw [eraseKey, if_pos hp]
      exact hnd.2
    · rw [NodupKeys, eraseKey, if_neg hp, List.map_cons, List.nodup_cons]
      exact ⟨fun hmem => hnd.1 (mem_keys_eraseKey hmem), ih hnd.2⟩

theorem mem_putKey_cases {k : K} {v : V} {p : K × V} {l : List (K × V)}
    (h : p ∈ putKey k v l) : p = (k, v) ∨ p ∈ l := by
  induction l with
  | nil => simpa [putKey] using h
  | cons q rest ih =>
    by_cases hq : q.1 = k
    · rw [putKey, if_pos hq] at h
      rcases List.mem_cons.1 h with h1 | h2
      · exact Or.inl h1
      · exact Or.inr (List.mem_cons.2 (Or.inr h2))
    · rw [putKey, if_neg hq] at h
      rcases List.mem_cons.1 h with h1 | h2
      · exact Or.inr (List.mem_cons.2 (Or.inl h1))
      · rcases ih h2 with h3 | h4
        · exact Or.inl h3
        · exact Or.inr (List.mem_cons.2 (Or.inr h4))

theorem mem_eraseKey_subset {k : K} {p : K × V} {l : List (K × V)}
    (h : p ∈ eraseKey k l) : p ∈ l := by
  induction l with
  | nil => simpa [eraseKey] using h
  | cons q rest ih =>
    by_cases hq : q.1 = k
    · rw [eraseKey, if_pos hq] at h
      exact List.mem_cons.2 (Or.inr h)
    · rw [eraseKey, if_neg hq] at h
      rcases List.mem_cons.1 h with h1 | h2
      · exact List.mem_cons.2 (Or.inl h1)
      · exact List.mem_cons.2 (Or.inr (ih h2))

theorem lookupKey_of_mem_nodup {l : List (K × V)} (hnd : NodupKeys l)
    {k : K} {v : V} (h : (k, v) ∈ l) : lookupKey k l = some v := by
  induction l with
  | nil => simp at h
  | cons p rest ih =>
    rw [NodupKeys, List.map_cons, List.nodup_cons] at hnd
    rcases List.mem_cons.1 h with h1 | h2
    · rw [← h1, lookupKey, if_pos rfl]
    · have hne : p.1 ≠ k := by
        intro hc
        apply hnd.1
        rw [hc]
        exact List.mem_map.2 ⟨(k, v), h2, rfl⟩
      rw [lookupKey, if_neg hne]
      exact ih hnd.2 h2

theorem mem_of_lookupKey_some {l : List (K × V)} {k : K} {v : V}
    (h : lookupKey k l = some v) : (k, v) ∈ l := by
  induction l with
  | nil => exact Option.noConfusion h
  | cons p rest ih =>
    rw [lookupKey] at h
    by_cases hp : p.1 = k
    · rw [if_pos hp] at h
      injection h with h
      have hpe : p = (k, v) := by rw [← hp, ← h]
      exact List.mem_cons.2 (Or.inl hpe.symm)
    · rw [if_neg hp] at h
      exact List.mem_cons.2 (Or.inr (ih h))

end Assoc

namespace Logc

open Assoc

variable {K V : Type} [DecidableEq K]

theorem msgsFrom_length (base : Nat) (recs : List (K × Option V)) :
    (msgsFrom (K := K) (V := V) base recs).length = recs.length := by
  induction recs generalizing base with
  | nil => rfl
  | cons r rest ih => simp [msgsFrom, ih]

theorem msgsOf_length (log : Log K V) : (msgsOf log).length = log.length :=
  msgsFrom_length 0 log

theorem getByKeyFrom_append (k : K) (base : Nat) (a b : List (K × Option V)) :
    GetByKeyFrom k base (a ++ b) =
      match GetByKeyFrom k (base + a.length) b with
      | some m => some m
      | none => GetByKeyFrom k base a := by
  induction a generalizing base with
  | nil =>
    simp only [List.nil_append, List.length_nil, Nat.add_zero]
    cases GetByKeyFrom k base b <;> rfl
  | cons r rest ih =>
    have harith : base + 1 + rest.length = base + (rest.length + 1) := by omega
    rw [List.cons_append, GetByKeyFrom, ih (base + 1), harith, List.length_cons, GetByKeyFrom]
    cases GetByKeyFrom k (base + (rest.length + 1)) b with
    | some m => rfl
    | none => cases GetByKeyFrom k (base + 1) rest <;> rfl

theorem getByKey_append_single (log : Log K V) (k k2 : K) (ov : Option V) :
    GetByKey (log ++ [(k2, ov)]) k =
      if k2 = k then some ⟨log.length, k2, ov⟩ else GetByKey log k := by
  rw [GetByKey, getByKeyFrom_append, GetByKeyFrom, GetByKeyFrom]
  by_cases h : k2 = k
  · simp [h]
  · simp [h, GetByKey]

theorem get_append_single (log : Log K V) (k k2 : K) (ov : Option V) :
    Get (log ++ [(k2, ov)]) k = if k2 = k then ov else Get log k := by
  rw [Get, getByKey_append_single]
  by_cases h : k2 = k
  · rw [if_pos h, if_pos h]
  · rw [if_neg h, if_neg h, Get]

theorem get_applyOps (log : Log K V) (ops : List (Op K V)) (k : K) :
    Get (applyOps log ops) k =
      match specLastWrite k ops with
      | some ov => ov
      | none => Get log k := by
  induction ops generalizing log with
  | nil => cases hg : GetByKey log k <;> simp [applyOps, specLastWrite]
  | cons op rest ih =>
    have hstep : applyOps log (op :: rest) = applyOps (applyOp log op) rest := rfl
    rw [hstep, ih]
    cases hrest : specLastWrite (V := V) k rest with
    | some x => simp [specLastWrite, hrest]
    | none =>
      cases op with
      | put k2 v =>
        by_cases h : k2 = k
        · simp [specLastWrite, hrest, h, applyOp, Put, get_append_single]
        · simp [specLastWrite, hrest, h, applyOp, Put, get_append_single]
      | del k2 =>
        by_cases h : k2 = k
        · simp [specLastWrite, hrest, h, applyOp, Del, get_append_single]
        · simp [specLastWrite, hrest, h, applyOp, Del, get_append_single]

theorem mem_msgsFrom_offset_ge {base : Nat} {recs : List (K × Option V)}
    {m : Message K V} (h : m ∈ msgsFrom base recs) : base ≤ m.offset := by
  induction recs generalizing base with
  | nil => simp [msgsFrom] at h
  | cons r rest ih =>
    rcases List.mem_cons.1 h with h1 | h2
    · subst h1; exact le_refl _
    · exact le_trans (Nat.le_succ base) (ih h2)

theorem mem_msgsFrom_offset_lt {base : Nat} {recs : List (K × Option V)}
    {m : Message K V} (h : m ∈ msgsFrom base recs) : m.offset < base + recs.length := by
  induction recs generalizing base with
  | nil => simp [msgsFrom] at h
  | cons r rest ih =>
    rcases List.mem_cons.1 h with h1 | h2
    · subst h1; simp
    · have := ih h2
      simp only [List.length_cons]
      omega

theorem msgsFrom_offset_inj {base : Nat} {recs : List (K × Option V)}
    {m1 m2 : Message K V} (h1 : m1 ∈ msgsFrom base recs) (h2 : m2 ∈ msgsFrom base recs)
    (hoff : m1.offset = m2.offset) : m1 = m2 := by
  induction recs generalizing base with
  | nil => simp [msgsFrom] at h1
  | cons r rest ih =>
    rcases List.mem_cons.1 h1 with ha | ha <;> rcases List.mem_cons.1 h2 with hb | hb
    · rw [ha, hb]
    · exfalso
      have := mem_msgsFrom_offset_ge hb
      rw [ha] at hoff
      simp at hoff
      omega
    · exfalso
      have := mem_msgsFrom_offset_ge ha
      rw [hb] at hoff
      simp at hoff
      omega
    · exact ih ha hb

theorem getByKeyFrom_key {k : K} {base : Nat} {recs : List (K × Option V)}
    {m : Message K V} (h : GetByKeyFrom k base recs = some m) : m.key = k := by
  induction recs generalizing base with
  | nil => exact Option.noConfusion h
  | cons r rest ih =>
    rw [GetByKeyFrom] at h
    cases hr : GetByKeyFrom k (base + 1) rest with
    | some m2 =>
      rw [hr] at h
      exact ih (hr.trans (by injection h with h; rw [h]))
    | none =>
      rw [hr] at h
      by_cases hk : r.1 = k
      · rw [if_pos hk] at h
        injection h with h
        rw [← h]
        exact hk
      · rw [if_neg hk] at h
        exact Option.noConfusion h

theorem getByKeyFrom_mem {k : K} {base : Nat} {recs : List (K × Option V)}
    {m : Message K V} (h : GetByKeyFrom k base recs = some m) : m ∈ msgsFrom base recs := by
  induction recs generalizing base with
  | nil => exact Option.noConfusion h
  | cons r rest ih =>
    rw [GetByKeyFrom] at h
    cases hr : GetByKeyFrom k (base + 1) rest with
    | some m2 =>
      rw [hr] at h
      injection h with h
      subst h
      exact List.mem_cons.2 (Or.inr (ih hr))
    | none =>
      rw [hr] at h
      by_cases hk : r.1 = k
      · rw [if_pos hk] at h
        injection h with h
        subst h
        exact List.mem_cons.2 (Or.inl rfl)
      · rw [if_neg hk] at h
        exact Option.noConfusion h

theorem getByKeyFrom_none {k : K} {base : Nat} {recs : List (K × Option V)}
    (h : GetByKeyFrom k base recs = none) :
    ∀ m2 ∈ msgsFrom (K := K) (V := V) base recs, m2.key ≠ k := by
  induction recs generalizing base with
  | nil => intro m2 hm2; simp [msgsFrom] at hm2
  | cons r rest ih =>
    rw [GetByKeyFrom] at h
    cases hr : GetByKeyFrom k (base + 1) rest with
    | some m2 => rw [hr] at h; exact Option.noConfusion h
    | none =>
      rw [hr] at h
      by_cases hk : r.1 = k
      · rw [if_pos hk] at h; exact Option.noConfusion h
      · intro m2 hm2
        rcases List.mem_cons.1 hm2 with h1 | h2
        · subst h1; exact hk
        · exact ih hr m2 h2

theorem getByKeyFrom_latest {k : K} {base : Nat} {recs : List (K × Option V)}
    {m : Message K V} (h : GetByKeyFrom k base recs = some m) :
    ∀ m2 ∈ msgsFrom (K := K) (V := V) base recs, m2.key = k → m2.offset ≤ m.offset := by
  induction recs generalizing base with
  | nil => exact Option.noConfusion h
  | cons r rest ih =>
    rw [GetByKeyFrom] at h
    cases hr : GetByKeyFrom k (base + 1) rest with
    | some m3 =>
      rw [hr] at h
      injection h with h
      subst h
      intro m2 hm2 hk2
      rcases List.mem_cons.1 hm2 with h1 | h2
      · subst h1
        have := mem_msgsFrom_offset_ge (getByKeyFrom_mem hr)
        simp
        omega
      · exact ih hr m2 h2 hk2
    | none =>
      rw [hr] at h
      by_cases hk : r.1 = k
      · rw [if_pos hk] at h
        injection h with h
        subst h
        intro m2 hm2 hk2
        rcases List.mem_cons.1 hm2 with h1 | h2
        · subst h1; exact le_refl _
        · exact absurd hk2 (getByKeyFrom_none hr m2 h2)
      · rw [if_neg hk] at h
        exact Option.noConfusion h

theorem getByKeyFrom_isSome_of_mem {base : Nat} {recs : List (K × Option V)}
    {m : Message K V} (h : m ∈ msgsFrom base recs) :
    GetByKeyFrom m.key base recs ≠ none := by
  intro hc
  exact getByKeyFrom_none hc m h rfl

theorem getByKey_eq_self_iff_not_superseded {log : Log K V} {m : Message K V}
    (hm : m ∈ msgsOf log) :
    GetByKey log m.key = some m ↔ ¬ superseded log m := by
  constructor
  · rintro h ⟨m2, hmem, hlt, hkey⟩
    have := getByKeyFrom_latest h m2 hmem hkey
    omega
  · intro hns
    cases hres : GetByKey log m.key with
    | none => exact absurd hres (getByKeyFrom_isSome_of_mem hm)
    | some m3 =>
      have hkey3 : m3.key = m.key := getByKeyFrom_key hres
      have hmem3 : m3 ∈ msgsOf log := getByKeyFrom_mem hres
      have hle : m.offset ≤ m3.offset := getByKeyFrom_latest hres m hm rfl
      have hle2 : m3.offset ≤ m.offset := by
        by_contra hc
        exact hns ⟨m3, hmem3, lt_of_not_le hc, hkey3⟩
      rw [msgsFrom_offset_inj hmem3 hm (le_antisymm hle2 hle)]

theorem foldl_snapStep_nodupKeys {msgs : List (Message K V)}
    {sum : List (K × Message K V)} (hnd : NodupKeys sum) :
    NodupKeys (msgs.foldl snapStep sum) := by
  induction msgs generalizing sum with
  | nil => exact hnd
  | cons m rest ih =>
    rw [List.foldl_cons]
    apply ih
    cases hv : m.value with
    | none =>
      rw [snapStep, hv]
      exact nodupKeys_eraseKey _ hnd
    | some v =>
      rw [snapStep, hv]
      exact nodupKeys_putKey _ _ hnd

theorem foldl_snapStep_keyConsistent {msgs : List (Message K V)}
    {sum : List (K × Message K V)}
    (hkc : ∀ p ∈ sum, (Prod.snd p).key = p.1) :
    ∀ p ∈ msgs.foldl snapStep sum, (Prod.snd p).key = p.1 := by
  induction msgs generalizing sum with
  | nil => exact hkc
  | cons m rest ih =>
    rw [List.foldl_cons]
    apply ih
    intro p hp
    cases hv : m.value with
    | none =>
      rw [snapStep, hv] at hp
      exact hkc p (mem_eraseKey_subset hp)
    | some v =>
      rw [snapStep, hv] at hp
      rcases mem_putKey_cases hp with h1 | h2
      · rw [h1]
      · exact hkc p h2

theorem foldl_snapStep_lookup (k : K) (recs : List (K × Option V)) :
    ∀ (base : Nat) (sum : List (K × Message K V)), NodupKeys sum →
    lookupKey k ((msgsFrom base recs).foldl snapStep sum) =
      match GetByKeyFrom k base recs with
      | some m => if m.value.isSome then some m else none
      | none => lookupKey k sum := by
  induction recs with
  | nil => intro base sum _; rfl
  | cons r rest ih =>
    obtain ⟨k0, ov⟩ := r
    intro base sum hnd
    cases ov with
    | none =>
      have hstep : snapStep sum ⟨base, k0, none⟩ = eraseKey k0 sum := rfl
      rw [msgsFrom, List.foldl_cons, hstep, ih (base + 1) _ (nodupKeys_eraseKey _ hnd),
        GetByKeyFrom]
      cases hr : GetByKeyFrom k (base + 1) rest with
      | some m => rfl
      | none =>
        by_cases hk : k0 = k
        · subst hk
          rw [if_pos rfl]
          show lookupKey k0 (eraseKey k0 sum) = if (none : Option V).isSome then _ else none
          rw [lookupKey_eraseKey_self k0 sum hnd]
          rfl
        · rw [if_neg hk]
          exact lookupKey_eraseKey_ne k0 k sum hk
    | some v =>
      have hstep : snapStep sum ⟨base, k0, some v⟩ = putKey k0 ⟨base, k0, some v⟩ sum := rfl
      rw [msgsFrom, List.foldl_cons, hstep, ih (base + 1) _ (nodupKeys_putKey _ _ hnd),
        GetByKeyFrom]
      cases hr : GetByKeyFrom k (base + 1) rest with
      | some m => rfl
      | none =>
        by_cases hk : k0 = k
        · subst hk
          rw [if_pos rfl]
          show lookupKey k0 (putKey k0 _ sum) = if (some v).isSome then _ else none
          rw [lookupKey_putKey_self]
          rfl
        · rw [if_neg hk]
          exact lookupKey_putKey_ne k0 k _ sum hk

theorem batch_length_pos {log : Log K V} {offset : Nat} (h : offset < log.length) :
    0 < (((msgsOf log).drop offset).take 32).length := by
  have hne : (msgsOf log).drop offset ≠ [] := by
    intro hc
    have hle := List.drop_eq_nil_iff.1 hc
    rw [msgsOf_length] at hle
    exact absurd hle (not_le.2 h)
  rw [List.length_take]
  exact lt_min (by norm_num) (List.length_pos.2 hne)

theorem drop_length_take (n : Nat) {A : Type} (s : List A) :
    s.drop ((s.take n).length) = s.drop n := by
  rw [List.length_take]
  rcases Nat.le_total n s.length with h | h
  · rw [Nat.min_eq_left h]
  · rw [Nat.min_eq_right h, List.drop_length]
    exact (List.drop_eq_nil_iff.2 h).symm

theorem snapshotLoop_eq_foldl (log : Log K V) :
    ∀ (n offset : Nat) (sum : List (K × Message K V)), log.length - offset ≤ n →
    SnapshotLoop log offset sum = ((msgsOf log).drop offset).foldl snapStep sum := by
  intro n
  induction n with
  | zero =>
    intro offset sum hb
    have hge : log.length ≤ offset := by omega
    rw [SnapshotLoop, dif_neg (not_lt.2 hge)]
    have hnil : (msgsOf log).drop offset = [] :=
      List.drop_eq_nil_iff.2 (by rwa [msgsOf_length])
    rw [hnil, List.foldl_nil]
  | succ n ih =>
    intro offset sum hb
    by_cases h : offset < log.length
    · rw [SnapshotLoop, dif_pos h]
      have hpos := batch_length_pos (V := V) h
      rw [ih _ _ (by omega)]
      have hdd : (msgsOf log).drop (offset + (((msgsOf log).drop offset).take 32).length) =
          ((msgsOf log).drop offset).drop ((((msgsOf log).drop offset).take 32).length) := by
        rw [List.drop_drop]
      rw [hdd, drop_length_take]
      conv_rhs => rw [← List.take_append_drop 32 ((msgsOf log).drop offset)]
      rw [List.foldl_append]
    · rw [SnapshotLoop, dif_neg h]
      have hnil : (msgsOf log).drop offset = [] :=
        List.drop_eq_nil_iff.2 (by rw [msgsOf_length]; omega)
      rw [hnil, List.foldl_nil]

theorem snapshotLoop_spec (log : Log K V) :
    SnapshotLoop log 0 [] = (msgsOf log).foldl snapStep [] := by
  rw [snapshotLoop_eq_foldl log log.length 0 [] (by omega), List.drop_zero]

theorem snapshot_eq (log : Log K V) :
    Snapshot log = (List.insertionSort (fun a b => a.offset ≤ b.offset)
      (((msgsOf log).foldl snapStep []).map Prod.snd), log.length) := by
  rw [Snapshot, snapshotLoop_spec]

theorem snapshot_sum_lookup (log : Log K V) (k : K) :
    lookupKey k (SnapshotLoop log 0 []) =
      match GetByKey log k with
      | some m => if m.value.isSome then some m else none
      | none => none := by
  rw [snapshotLoop_spec]
  have h := foldl_snapStep_lookup (V := V) k log 0 [] nodupKeys_nil
  refine h.trans ?_
  rw [GetByKey]
  cases GetByKeyFrom k 0 log <;> rfl

theorem snapshot_sum_nodup (log : Log K V) : NodupKeys (SnapshotLoop log 0 []) := by
  rw [snapshotLoop_spec]
  exact foldl_snapStep_nodupKeys nodupKeys_nil

theorem snapshot_sum_keyConsistent (log : Log K V) :
    ∀ p ∈ SnapshotLoop log 0 [], (Prod.snd p).key = p.1 := by
  rw [snapshotLoop_spec]
  exact foldl_snapStep_keyConsistent (by intro p hp; simp at hp)

theorem mem_snapshot_iff (log : Log K V) (m : Message K V) :
    m ∈ (Snapshot log).1 ↔ (GetByKey log m.key = some m ∧ m.value.isSome) := by
  rw [Snapshot]
  rw [(List.perm_insertionSort (fun a b => a.offset ≤ b.offset)
    ((SnapshotLoop log 0 []).map Prod.snd)).mem_iff]
  constructor
  · intro hmem
    rcases List.mem_map.1 hmem with ⟨⟨k0, m0⟩, hp, hpm⟩
    have hpm2 : m0 = m := hpm
    subst hpm2
    have hk : m0.key = k0 := snapshot_sum_keyConsistent log (k0, m0) hp
    have hlk : lookupKey k0 (SnapshotLoop log 0 []) = some m0 :=
      lookupKey_of_mem_nodup (snapshot_sum_nodup log) hp
    have hchar := snapshot_sum_lookup log k0
    rw [hlk] at hchar
    cases hg : GetByKey log k0 with
    | none =>
      rw [hg] at hchar
      have hcontra : some m0 = (none : Option (Message K V)) := hchar
      exact Option.noConfusion hcontra
    | some m2 =>
      rw [hg] at hchar
      have hchar2 : some m0 = if m2.value.isSome then some m2 else none := hchar
      by_cases hs : m2.value.isSome
      · rw [if_pos hs] at hchar2
        injection hchar2 with he
        constructor
        · rw [hk, hg, he]
        · rw [he]; exact hs
      · rw [if_neg hs] at hchar2
        exact Option.noConfusion hchar2
  · rintro ⟨hg, hs⟩
    have hlk : lookupKey m.key (SnapshotLoop log 0 []) = some m := by
      have hchar := snapshot_sum_lookup log m.key
      rw [hg] at hchar
      have hchar2 : lookupKey m.key (SnapshotLoop log 0 []) =
          if m.value.isSome then some m else none := hchar
      rw [hchar2, if_pos hs]
    exact List.mem_map.2 ⟨(m.key, m), mem_of_lookupKey_some hlk, rfl⟩

theorem countP_map_snd (k : K) (sum : List (K × Message K V)) (hnd : NodupKeys sum)
    (hkc : ∀ p ∈ sum, (Prod.snd p).key = p.1) :
    (sum.map Prod.snd).countP (fun m => decide (m.key = k)) =
      match lookupKey k sum with
      | some _ => 1
      | none => 0 := by
  induction sum with
  | nil => rfl
  | cons p rest ih =>
    rw [NodupKeys, List.map_cons, List.nodup_cons] at hnd
    have hpk : p.2.key = p.1 := hkc p (List.mem_cons.2 (Or.inl rfl))
    have hkc2 : ∀ q ∈ rest, (Prod.snd q).key = q.1 :=
      fun q hq => hkc q (List.mem_cons.2 (Or.inr hq))
    rw [List.map_cons, List.countP_cons, ih hnd.2 hkc2, lookupKey]
    by_cases hp : p.1 = k
    · rw [if_pos hp]
      have hlk : lookupKey k rest = none :=
        lookupKey_eq_none_of_notMem_keys (hp ▸ hnd.1)
      rw [hlk]
      simp [hpk, hp]
    · rw [if_neg hp]
      have hd : (decide (p.2.key = k)) = false := by
        simp [hpk]
        exact hp
      rw [hd]
      cases lookupKey k rest <;> simp

theorem snapshot_countP (log : Log K V) (k : K) :
    (Snapshot log).1.countP (fun m => decide (m.key = k)) =
      if specAlive log k then 1 else 0 := by
  rw [Snapshot]
  rw [(List.perm_insertionSort (fun a b : Message K V => a.offset ≤ b.offset)
    ((SnapshotLoop log 0 []).map Prod.snd)).countP_eq]
  rw [countP_map_snd k _ (snapshot_sum_nodup log) (snapshot_sum_keyConsistent log)]
  rw [snapshot_sum_lookup, specAlive]
  cases hg : GetByKey log k with
  | none => rfl
  | some m =>
    by_cases hs : m.value.isSome
    · rw [if_pos hs]; simp [hs]
    · rw [if_neg hs]; simp [hs]

theorem snapshot_sorted (log : Log K V) :
    (Snapshot log).1.Sorted (fun a b => a.offset ≤ b.offset) := by
  have h1 : IsTotal (Message K V) (fun a b => a.offset ≤ b.offset) :=
    ⟨fun a b => Nat.le_total a.offset b.offset⟩
  have h2 : IsTrans (Message K V) (fun a b => a.offset ≤ b.offset) :=
    ⟨fun a b c hab hbc => Nat.le_trans hab hbc⟩
  exact List.sorted_insertionSort _ _

end Logc

/-- C1: for every key k, after any finite sequence of Put/Delete
operations applied to an initially empty keyed log, Get(k) returns the
value of the last Put(k,v) when no later Delete(k) occurred, and
NotFound (none) otherwise -- both when k was never written and when its
latest record is a tombstone. -/
theorem c1_get_last_put {K V : Type} [DecidableEq K]
    (ops : List (Logc.Op K V)) (k : K) :
    Logc.Get (Logc.applyOps [] ops) k = Logc.specGet ops k := by
  rw [Logc.get_applyOps, Logc.specGet]
  cases h : Logc.specLastWrite (V := V) k ops with
  | none => simp [Logc.Get, Logc.GetByKey, Logc.GetByKeyFrom]
  | some x => cases x <;> simp

/-- C1 witness: a concrete run. After Put(a,1) Put(b,2) Put(a,3) Del(b),
Get(a)=3 (last put, not deleted), Get(b)=NotFound (tombstoned),
Get(c)=NotFound (never written). -/
theorem c1_get_last_put_witness :
    Logc.Get (Logc.applyOps []
      [Logc.Op.put "a" 1, Logc.Op.put "b" 2, Logc.Op.put "a" 3, Logc.Op.del "b"]) "a" =
      Logc.specGet [Logc.Op.put "a" 1, Logc.Op.put "b" 2, Logc.Op.put "a" 3, Logc.Op.del "b"] "a"
    ∧ Logc.specGet [Logc.Op.put "a" 1, Logc.Op.put "b" 2, Logc.Op.put "a" 3, Logc.Op.del "b"] "a" = some 3
    ∧ Logc.Get (Logc.applyOps []
      [Logc.Op.put "a" 1, Logc.Op.put "b" 2, Logc.Op.put "a" 3, Logc.Op.del "b"]) "b" = none
    ∧ Logc.Get (Logc.applyOps []
      [Logc.Op.put "a" 1, Logc.Op.put "b" 2, Logc.Op.put "a" 3, Logc.Op.del "b"]) "c" = none := by
  refine ⟨c1_get_last_put _ _, by decide, ?_, ?_⟩
  · rw [c1_get_last_put]; decide
  · rw [c1_get_last_put]; decide

/-- C2: for every log, Snapshot returns exactly one Message per key whose
latest record is not a tombstone, each message being that key's latest
record (hence carrying the latest value and the latest-write offset),
sorted by offset ascending, together with the next-offset cursor (the
log length); every returned message sits strictly below the returned
next-offset, so no record at or after the cursor is included. -/
theorem c2_snapshot_compaction {K V : Type} [DecidableEq K] (log : Logc.Log K V) :
    (Logc.Snapshot log).2 = log.length
    ∧ (∀ m ∈ (Logc.Snapshot log).1, m.offset < (Logc.Snapshot log).2)
    ∧ (∀ m ∈ (Logc.Snapshot log).1, Logc.GetByKey log m.key = some m ∧ m.value.isSome)
    ∧ (∀ k, ((Logc.Snapshot log).1.countP (fun m => decide (m.key = k))) =
        if Logc.specAlive log k then 1 else 0)
    ∧ (Logc.Snapshot log).1.Sorted (fun a b => a.offset ≤ b.offset) := by
  refine ⟨rfl, ?_, ?_, ?_, Logc.snapshot_sorted log⟩
  · intro m hm
    have h := (Logc.mem_snapshot_iff log m).1 hm
    have h2 := Logc.mem_msgsFrom_offset_lt (Logc.getByKeyFrom_mem h.1)
    simpa [Logc.Snapshot] using h2
  · intro m hm
    exact (Logc.mem_snapshot_iff log m).1 hm
  · intro k
    exact Logc.snapshot_countP log k

/-- C2 witness: the theorem evaluated on the concrete log
Put(a,1); Put(b,2); Del(a): cursor 3, all snapshot offsets below 3, and
one message exactly for the live key b. -/
theorem c2_snapshot_compaction_witness :
    (Logc.Snapshot ([("a", some 1), ("b", some 2), ("a", none)] : Logc.Log String Nat)).2 = 3
    ∧ (∀ m ∈ (Logc.Snapshot ([("a", some 1), ("b", some 2), ("a", none)] : Logc.Log String Nat)).1,
        m.offset < (Logc.Snapshot ([("a", some 1), ("b", some 2), ("a", none)] : Logc.Log String Nat)).2)
    ∧ ((Logc.Snapshot ([("a", some 1), ("b", some 2), ("a", none)] : Logc.Log String Nat)).1.countP
        (fun m => decide (m.key = "b")) =
        if Logc.specAlive ([("a", some 1), ("b", some 2), ("a", none)] : Logc.Log String Nat) "b"
        then 1 else 0) := by
  have h := c2_snapshot_compaction ([("a", some 1), ("b", some 2), ("a", none)] : Logc.Log String Nat)
  exact ⟨h.1, h.2.1, h.2.2.2.1 "b"⟩

/-- C3 counterexample: the claim's if-and-only-if fails for tombstones.
In the log Put(k,1); Del(k), the tombstone message at offset 1 is
observed by Consume from offset 0 and is not superseded by any later
write, yet it does not appear in Snapshot (which drops tombstones). -/
theorem c3_roundtrip_counterexample :
    (Logc.Message.mk 1 "k" (none : Option Nat)) ∈
      (Logc.Consume ([("k", some 1), ("k", none)] : Logc.Log String Nat) 0).1
    ∧ ¬ Logc.superseded ([("k", some 1), ("k", none)] : Logc.Log String Nat)
        (Logc.Message.mk 1 "k" (none : Option Nat))
    ∧ (Logc.Message.mk 1 "k" (none : Option Nat)) ∉
      (Logc.Snapshot ([("k", some 1), ("k", none)] : Logc.Log String Nat)).1 := by
  refine ⟨by decide, by decide, ?_⟩
  rw [Logc.snapshot_eq]
  decide

/-- C3 (amended): a message observed via Consume at its offset reappears
in Snapshot at the same offset if and only if it is not a tombstone and
is not superseded by a later write to the same key. -/
theorem c3_consume_snapshot_roundtrip {K V : Type} [DecidableEq K]
    (log : Logc.Log K V) (offset : Nat) (m : Logc.Message K V)
    (h : m ∈ (Logc.Consume log offset).1) :
    m ∈ (Logc.Snapshot log).1 ↔ (m.value.isSome ∧ ¬ Logc.superseded log m) := by
  have hm : m ∈ Logc.msgsOf log :=
    List.drop_subset _ _ (List.take_subset _ _ h)
  rw [Logc.mem_snapshot_iff]
  constructor
  · rintro ⟨hg, hs⟩
    exact ⟨hs, (Logc.getByKey_eq_self_iff_not_superseded hm).1 hg⟩
  · rintro ⟨hs, hns⟩
    exact ⟨(Logc.getByKey_eq_self_iff_not_superseded hm).2 hns, hs⟩

/-- C3 (amended) witness: in the log Put(k,1); Put(k,2), the message at
offset 1 is observed by Consume from 0, is a put and unsuperseded, and
the equivalence instantiates to it being in the snapshot. -/
theorem c3_consume_snapshot_roundtrip_witness :
    (Logc.Message.mk 1 "k" (some 2)) ∈
      (Logc.Consume ([("k", some 1), ("k", some 2)] : Logc.Log String Nat) 0).1
    ∧ ((Logc.Message.mk 1 "k" (some 2)) ∈
        (Logc.Snapshot ([("k", some 1), ("k", some 2)] : Logc.Log String Nat)).1 ↔
        ((Logc.Message.mk 1 "k" (some 2)).value.isSome
          ∧ ¬ Logc.superseded ([("k", some 1), ("k", some 2)] : Logc.Log String Nat)
              (Logc.Message.mk 1 "k" (some 2)))) := by
  refine ⟨by decide, ?_⟩
  exact c3_consume_snapshot_roundtrip _ 0 _ (by decide)

namespace Control

theorem mkClientsChange_forward (m : Logc.Message RelayClientKey Cert) :
    (mkClientsChange m).forward = m.key.forward := by
  cases hv : m.value <;> rw [mkClientsChange, hv]

end Control

/-- C5: every change contained in a ClientsResp built by
relayConn.runRelayClients for a relay authenticated with the given
Allow predicate satisfies that predicate on the change's forward --
for any relay-clients log contents and any subscription offset
(Snapshot from OffsetOldest or Consume otherwise). -/
theorem c5_relay_clients_isolation (allow : Control.Forward → Bool)
    (log : Logc.Log Control.RelayClientKey Control.Cert) (reqOffset : Int) :
    ∀ ch ∈ (Control.runRelayClientsStep allow log reqOffset).changes,
      allow ch.forward = true := by
  intro ch hch
  rw [Control.runRelayClientsStep] at hch
  simp only at hch
  rcases List.mem_map.1 hch with ⟨m, hm, hmc⟩
  have hall := List.of_mem_filter hm
  rw [← hmc, Control.mkClientsChange_forward]
  exact hall

/-- C5 witness: with Allow accepting only forward ok, the response to a
ClientsReq at offset 0 over a log holding records for ok and for deny
contains only allowed changes; applied to the first change of that
concrete response. -/
theorem c5_relay_clients_isolation_witness :
    (Control.ClientsRespChange.mk "ok" Control.Role.destination "ck1"
        Control.ChangeType.changePut (some 5)) ∈
      (Control.runRelayClientsStep (fun f => f = "ok")
        ([(⟨"ok", Control.Role.destination, "ck1"⟩, some 5),
          (⟨"deny", Control.Role.source, "ck2"⟩, some 6)] :
          Logc.Log Control.RelayClientKey Control.Cert) 0).changes
    ∧ ((fun f => decide (f = "ok"))
        (Control.ClientsRespChange.mk "ok" Control.Role.destination "ck1"
          Control.ChangeType.changePut (some 5)).forward = true) := by
  refine ⟨by decide, ?_⟩
  exact c5_relay_clients_isolation (fun f => decide (f = "ok"))
    ([(⟨"ok", Control.Role.destination, "ck1"⟩, some 5),
      (⟨"deny", Control.Role.source, "ck2"⟩, some 6)] :
      Logc.Log Control.RelayClientKey Control.Cert) 0
    (Control.ClientsRespChange.mk "ok" Control.Role.destination "ck1"
      Control.ChangeType.changePut (some 5)) (by decide)

/-- C7: pb/shared.proto assigns exactly the claimed numeric codes to the
Error.Code enum, but the checked-in generated pb/shared.pb.go (which
declares itself generated from shared.proto) disagrees: it maps
DestinationNotFound to 400 and DestinationDialFailed to 401 instead of
500/501, carries RegistrationFailed=200 and Listener codes 300-303
instead of the Relay/Destination/Source validation codes, and no
generated constant carries 201 (RelayDestinationValidationFailed) at
all. The generated file is stale with respect to its declared source. -/
theorem c7_error_codes_generated_stale :
    (Pb.protoCodeValue .unknown = 0
      ∧ Pb.protoCodeValue .requestUnknown = 1
      ∧ Pb.protoCodeValue .authenticationFailed = 100
      ∧ Pb.protoCodeValue .relayInvalidCertificate = 200
      ∧ Pb.protoCodeValue .relayDestinationValidationFailed = 201
      ∧ Pb.protoCodeValue .relaySourceValidationFailed = 202
      ∧ Pb.protoCodeValue .destinationValidationFailed = 300
      ∧ Pb.protoCodeValue .destinationInvalidCertificate = 301
      ∧ Pb.protoCodeValue .sourceValidationFailed = 400
      ∧ Pb.protoCodeValue .sourceInvalidCertificate = 401
      ∧ Pb.protoCodeValue .destinationNotFound = 500
      ∧ Pb.protoCodeValue .destinationDialFailed = 501)
    ∧ Pb.genCodeValue .destinationNotFound = 400
    ∧ Pb.genCodeValue .destinationDialFailed = 401
    ∧ Pb.genCodeValue .destinationNotFound ≠ Pb.protoCodeValue .destinationNotFound
    ∧ Pb.genCodeValue .registrationFailed = 200
    ∧ (∀ c : Pb.GenErrorCode, Pb.genCodeValue c ≠ 201) := by
  decide

/-- C8: the connet binary's exit codes, from the subcommand main
(package main decoding a toml config): after the single-file argument
rewrite, an argument count other than 3 exits 1; an unparsable config
exits 2; the server subcommand exits 4 on error else 0; the client
subcommand exits 5 on error else 0; the check subcommand exits 6 when
undecoded keys remain else 0; any other subcommand exits 3. -/
theorem c8_exit_codes :
    (∀ w : Cli.MainWorld, (Cli.effectiveArgs w).length ≠ 3 → Cli.connetMain w = 1)
    ∧ (∀ (w : Cli.MainWorld) (a0 cmd f : String), Cli.effectiveArgs w = [a0, cmd, f] →
        w.parseOk = false → Cli.connetMain w = 2)
    ∧ (∀ (w : Cli.MainWorld) (a0 f : String), Cli.effectiveArgs w = [a0, "server", f] →
        w.parseOk = true → Cli.connetMain w = (if w.serverErr then 4 else 0))
    ∧ (∀ (w : Cli.MainWorld) (a0 f : String), Cli.effectiveArgs w = [a0, "client", f] →
        w.parseOk = true → Cli.connetMain w = (if w.clientErr then 5 else 0))
    ∧ (∀ (w : Cli.MainWorld) (a0 f : String), Cli.effectiveArgs w = [a0, "check", f] →
        w.parseOk = true → Cli.connetMain w = (if w.undecodedCount > 0 then 6 else 0))
    ∧ (∀ (w : Cli.MainWorld) (a0 cmd f : String), Cli.effectiveArgs w = [a0, cmd, f] →
        w.parseOk = true → cmd ≠ "server" → cmd ≠ "client" → cmd ≠ "check" →
        Cli.connetMain w = 3) := by
  refine ⟨?_, ?_, ?_, ?_, ?_, ?_⟩
  · intro w hlen
    rw [Cli.connetMain]
    rcases hE : Cli.effectiveArgs w with _ | ⟨a, _ | ⟨b, _ | ⟨c, _ | ⟨d, rest⟩⟩⟩⟩ <;> try rfl
    exact absurd (by rw [hE]; rfl) hlen
  · intro w a0 cmd f hE hp
    rw [Cli.connetMain, hE, hp]
    rfl
  · intro w a0 f hE hp
    rw [Cli.connetMain, hE, hp]
    rfl
  · intro w a0 f hE hp
    rw [Cli.connetMain, hE, hp]
    rfl
  · intro w a0 f hE hp
    rw [Cli.connetMain, hE, hp]
    rfl
  · intro w a0 cmd f hE hp h1 h2 h3
    rw [Cli.connetMain, hE, hp]
    simp only [Bool.true_eq_false, if_false, h1, h2, h3, if_neg]

/-- C9: NewRoot mints an ed25519 CA certificate whose serial number is
the current time in microseconds and whose validity runs 90 days from
creation; every client certificate issued via Cert.new has IsCA=false,
an empty extended-key-usage list, and key usages exactly
digital-signature, key-encipherment and content-commitment; every
intermediate has IsCA=true with key usages digital-signature, cert-sign
and crl-sign. -/
theorem c9_certificate_templates (nowMicro : Int) (opts : Certc.CertOpts) :
    ((Certc.NewRoot nowMicro).keyAlgorithm = "ed25519"
      ∧ (Certc.NewRoot nowMicro).isCA = true
      ∧ (Certc.NewRoot nowMicro).serialNumber = nowMicro
      ∧ (Certc.NewRoot nowMicro).notBefore = nowMicro
      ∧ (Certc.NewRoot nowMicro).notAfter - (Certc.NewRoot nowMicro).notBefore =
          90 * Certc.microsPerDay)
    ∧ ((Certc.CertNew nowMicro opts .client).isCA = false
      ∧ (Certc.CertNew nowMicro opts .client).extKeyUsage = []
      ∧ (Certc.CertNew nowMicro opts .client).keyUsage =
          Nat.lor (Nat.lor Certc.keyUsageDigitalSignature Certc.keyUsageKeyEncipherment)
            Certc.keyUsageContentCommitment
      ∧ (Certc.CertNew nowMicro opts .client).keyUsage = 7)
    ∧ ((Certc.CertNew nowMicro opts .intermediate).isCA = true
      ∧ (Certc.CertNew nowMicro opts .intermediate).keyUsage =
          Nat.lor (Nat.lor Certc.keyUsageDigitalSignature Certc.keyUsageCertSign)
            Certc.keyUsageCRLSign
      ∧ (Certc.CertNew nowMicro opts .intermediate).keyUsage = 97) := by
  refine ⟨⟨rfl, rfl, rfl, rfl, ?_⟩, ⟨rfl, rfl, ?_, ?_⟩, ⟨rfl, ?_, ?_⟩⟩
  · rw [Certc.NewRoot]
    ring
  · simp [Certc.CertNew]
  · simp [Certc.CertNew, Certc.keyUsageDigitalSignature, Certc.keyUsageKeyEncipherment,
      Certc.keyUsageContentCommitment]
    decide
  · simp [Certc.CertNew]
  · simp [Certc.CertNew, Certc.keyUsageDigitalSignature, Certc.keyUsageCertSign,
      Certc.keyUsageCRLSign]
    decide

/-- C8 witness: the exit-code theorem applied at concrete invocations:
usage error 1, parse failure 2, server error 4, client error 5 (through
the single-file client shorthand), check with one undecoded key 6, and
unknown subcommand 3. -/
theorem c8_exit_codes_witness :
    Cli.connetMain ⟨["connet"], fun _ => false, true, 0, false, false⟩ = 1
    ∧ Cli.connetMain ⟨["connet", "server", "f.toml"], fun _ => false, false, 0, false, false⟩ = 2
    ∧ Cli.connetMain ⟨["connet", "server", "f.toml"], fun _ => false, true, 0, true, false⟩ =
        (if true then 4 else 0)
    ∧ Cli.connetMain ⟨["connet", "f.toml"], fun _ => true, true, 0, false, true⟩ =
        (if true then 5 else 0)
    ∧ Cli.connetMain ⟨["connet", "check", "f.toml"], fun _ => false, true, 1, false, false⟩ =
        (if (1 : Nat) > 0 then 6 else 0)
    ∧ Cli.connetMain ⟨["connet", "bogus", "f.toml"], fun _ => false, true, 0, false, false⟩ = 3 := by
  refine ⟨?_, ?_, ?_, ?_, ?_, ?_⟩
  · exact c8_exit_codes.1 _ (by decide)
  · exact c8_exit_codes.2.1 _ "connet" "server" "f.toml" (by decide) rfl
  · exact c8_exit_codes.2.2.1 _ "connet" "f.toml" (by decide) rfl
  · exact c8_exit_codes.2.2.2.1 _ "connet" "f.toml" (by decide) rfl
  · exact c8_exit_codes.2.2.2.2.1 _ "connet" "f.toml" (by decide) rfl
  · exact c8_exit_codes.2.2.2.2.2 _ "connet" "bogus" "f.toml" (by decide) rfl
      (by decide) (by decide) (by decide)

namespace Control

theorem applyPrim_offsets_putServer (s : ControlState) (k : RelayServerKey) (c : Cert) :
    (applyPrim s (.putServer k c)).relayServerOffsets = s.relayServerOffsets := rfl

theorem applyPrims_relayServers (ops : List PrimWrite) :
    ∀ s : ControlState, (applyPrims s ops).relayServers = s.relayServers ++ serverWrites ops := by
  induction ops with
  | nil => intro s; simp [applyPrims, serverWrites]
  | cons op rest ih =>
    intro s
    have hstep : applyPrims s (op :: rest) = applyPrims (applyPrim s op) rest := rfl
    rw [hstep, ih]
    cases op with
    | putServer k c =>
      simp [applyPrim, serverWrites, Logc.Put, List.append_assoc]
    | delServer k =>
      simp [applyPrim, serverWrites, Logc.Del, List.append_assoc]
    | putOffset hp o =>
      simp [applyPrim, serverWrites]

theorem getByKeyFrom_value_base {K V : Type} [DecidableEq K] (k : K)
    (recs : List (K × Option V)) (b1 b2 : Nat) :
    Option.map Logc.Message.value (Logc.GetByKeyFrom k b1 recs) =
      Option.map Logc.Message.value (Logc.GetByKeyFrom k b2 recs) := by
  induction recs generalizing b1 b2 with
  | nil => rfl
  | cons r rest ih =>
    rw [Logc.GetByKeyFrom, Logc.GetByKeyFrom]
    cases h1 : Logc.GetByKeyFrom k (b1 + 1) rest with
    | some m1 =>
      cases h2 : Logc.GetByKeyFrom k (b2 + 1) rest with
      | some m2 =>
        have := ih (b1 + 1) (b2 + 1)
        rw [h1, h2] at this
        exact this
      | none =>
        have := ih (b1 + 1) (b2 + 1)
        rw [h1, h2] at this
        exact Option.noConfusion this
    | none =>
      cases h2 : Logc.GetByKeyFrom k (b2 + 1) rest with
      | some m2 =>
        have := ih (b1 + 1) (b2 + 1)
        rw [h1, h2] at this
        exact Option.noConfusion this
      | none =>
        by_cases hk : r.1 = k
        · rw [if_pos hk, if_pos hk]
          rfl
        · rw [if_neg hk, if_neg hk]

theorem get_append {K V : Type} [DecidableEq K] (a b : Logc.Log K V) (k : K) :
    Logc.Get (a ++ b) k =
      match Logc.GetByKeyFrom k a.length b with
      | some m => m.value
      | none => Logc.Get a k := by
  rw [Logc.Get, Logc.GetByKey, Logc.getByKeyFrom_append]
  have hbase := getByKeyFrom_value_base k b (0 + a.length) a.length
  cases h : Logc.GetByKeyFrom k (0 + a.length) b with
  | some m =>
    rw [h] at hbase
    cases h2 : Logc.GetByKeyFrom k a.length b with
    | some m2 =>
      rw [h2] at hbase
      have hv : m.value = m2.value := by simpa using hbase
      show m.value = m2.value
      exact hv
    | none =>
      rw [h2] at hbase
      simp at hbase
  | none =>
    rw [h] at hbase
    cases h2 : Logc.GetByKeyFrom k a.length b with
    | some m2 =>
      rw [h2] at hbase
      simp at hbase
    | none => rfl

theorem get_append_idem {K V : Type} [DecidableEq K] (a w : Logc.Log K V) (k : K) :
    Logc.Get ((a ++ w) ++ w) k = Logc.Get (a ++ w) k := by
  rw [get_append (a ++ w) w k]
  have hbase := getByKeyFrom_value_base k w (a ++ w).length a.length
  cases h1 : Logc.GetByKeyFrom k (a ++ w).length w with
  | none => rfl
  | some m =>
    rw [h1] at hbase
    cases h2 : Logc.GetByKeyFrom k a.length w with
    | some m2 =>
      rw [h2] at hbase
      have hv : m.value = m2.value := by simpa using hbase
      show m.value = Logc.Get (a ++ w) k
      rw [get_append a w k, h2]
      exact hv
    | none =>
      rw [h2] at hbase
      simp at hbase

end Control

/-- C4 counterexample: the offset write is not atomic with the batch.
Starting from empty logs, relay r1's batch (one Put for forward web,
resp.Offset=1) issues two separate durable writes; a crash after the
first leaves the change applied but the offset unrecorded, so the next
ServersReq presents OffsetOldest rather than 1, and re-delivering the
batch on recovery appends the change a second time -- its effect is not
exactly-once. -/
theorem c4_offset_not_atomic_counterexample :
    Logc.Get (Control.applyPrims ⟨[], []⟩
        ((Control.runRelayServersBatch "r1"
          ⟨[⟨"web", 7, Control.ChangeType.changePut⟩], 1⟩).take 1)).relayServers
      ⟨"web", "r1"⟩ = some 7
    ∧ Control.getRelayServerOffset
        (Control.applyPrims ⟨[], []⟩
          ((Control.runRelayServersBatch "r1"
            ⟨[⟨"web", 7, Control.ChangeType.changePut⟩], 1⟩).take 1)) "r1" =
        Logc.OffsetOldest
    ∧ Logc.OffsetOldest ≠ (1 : Int)
    ∧ (Control.applyPrims
        (Control.applyPrims ⟨[], []⟩
          ((Control.runRelayServersBatch "r1"
            ⟨[⟨"web", 7, Control.ChangeType.changePut⟩], 1⟩).take 1))
        (Control.runRelayServersBatch "r1"
          ⟨[⟨"web", 7, Control.ChangeType.changePut⟩], 1⟩)).relayServers.length = 2 := by
  refine ⟨rfl, by decide, by decide, rfl⟩


namespace Control

theorem getOffset_after_batch (hp : HostPort) (off : Int) :
    ∀ chs : List ServersRespChange, (∀ ch ∈ chs, ch.change ≠ ChangeType.changeUnknown) →
    ∀ s : ControlState,
    getRelayServerOffset (applyPrims s (batchOpsGo hp off chs)) hp = off := by
  intro chs
  induction chs with
  | nil =>
    intro _ s
    show getRelayServerOffset (applyPrim s (.putOffset hp off)) hp = off
    rw [getRelayServerOffset]
    have hput : (applyPrim s (.putOffset hp off)).relayServerOffsets =
        s.relayServerOffsets ++ [(hp, some off)] := rfl
    rw [hput, Logc.get_append_single, if_pos rfl]
  | cons ch rest ih =>
    intro hch s
    have hne : ch.change ≠ ChangeType.changeUnknown := hch ch (List.mem_cons.2 (Or.inl rfl))
    have hrest : ∀ c ∈ rest, c.change ≠ ChangeType.changeUnknown :=
      fun c hc => hch c (List.mem_cons.2 (Or.inr hc))
    cases hc : ch.change with
    | changeUnknown => exact absurd hc hne
    | changePut =>
      have hbo : batchOpsGo hp off (ch :: rest) =
          PrimWrite.putServer ⟨ch.server, hp⟩ ch.serverCertificate :: batchOpsGo hp off rest := by
        rw [batchOpsGo, hc]
      rw [hbo]
      exact ih hrest _
    | changeDel =>
      have hbo : batchOpsGo hp off (ch :: rest) =
          PrimWrite.delServer ⟨ch.server, hp⟩ :: batchOpsGo hp off rest := by
        rw [batchOpsGo, hc]
      rw [hbo]
      exact ih hrest _

theorem getOffset_crash_prefix (hp : HostPort) (off : Int) :
    ∀ chs : List ServersRespChange, (∀ ch ∈ chs, ch.change ≠ ChangeType.changeUnknown) →
    ∀ (s : ControlState) (k : Nat), k < (batchOpsGo hp off chs).length →
    getRelayServerOffset (applyPrims s ((batchOpsGo hp off chs).take k)) hp =
      getRelayServerOffset s hp := by
  intro chs
  induction chs with
  | nil =>
    intro _ s k hk
    have hlen : (batchOpsGo hp off []).length = 1 := rfl
    have hk0 : k = 0 := by omega
    subst hk0
    rfl
  | cons ch rest ih =>
    intro hch s k hk
    have hne : ch.change ≠ ChangeType.changeUnknown := hch ch (List.mem_cons.2 (Or.inl rfl))
    have hrest : ∀ c ∈ rest, c.change ≠ ChangeType.changeUnknown :=
      fun c hc => hch c (List.mem_cons.2 (Or.inr hc))
    cases hc : ch.change with
    | changeUnknown => exact absurd hc hne
    | changePut =>
      have hbo : batchOpsGo hp off (ch :: rest) =
          PrimWrite.putServer ⟨ch.server, hp⟩ ch.serverCertificate :: batchOpsGo hp off rest := by
        rw [batchOpsGo, hc]
      rw [hbo] at hk ⊢
      cases k with
      | zero => rfl
      | succ k2 =>
        rw [List.take_succ_cons]
        have hk2 : k2 < (batchOpsGo hp off rest).length := by
          rw [List.length_cons] at hk
          omega
        calc getRelayServerOffset (applyPrims s
              (PrimWrite.putServer ⟨ch.server, hp⟩ ch.serverCertificate ::
                (batchOpsGo hp off rest).take k2)) hp
            = getRelayServerOffset
                (applyPrims (applyPrim s
                  (PrimWrite.putServer ⟨ch.server, hp⟩ ch.serverCertificate))
                  ((batchOpsGo hp off rest).take k2)) hp := rfl
          _ = getRelayServerOffset
                (applyPrim s (PrimWrite.putServer ⟨ch.server, hp⟩ ch.serverCertificate)) hp :=
              ih hrest _ k2 hk2
          _ = getRelayServerOffset s hp := rfl
    | changeDel =>
      have hbo : batchOpsGo hp off (ch :: rest) =
          PrimWrite.delServer ⟨ch.server, hp⟩ :: batchOpsGo hp off rest := by
        rw [batchOpsGo, hc]
      rw [hbo] at hk ⊢
      cases k with
      | zero => rfl
      | succ k2 =>
        rw [List.take_succ_cons]
        have hk2 : k2 < (batchOpsGo hp off rest).length := by
          rw [List.length_cons] at hk
          omega
        calc getRelayServerOffset (applyPrims s
              (PrimWrite.delServer ⟨ch.server, hp⟩ ::
                (batchOpsGo hp off rest).take k2)) hp
            = getRelayServerOffset
                (applyPrims (applyPrim s (PrimWrite.delServer ⟨ch.server, hp⟩))
                  ((batchOpsGo hp off rest).take k2)) hp := rfl
          _ = getRelayServerOffset
                (applyPrim s (PrimWrite.delServer ⟨ch.server, hp⟩)) hp :=
              ih hrest _ k2 hk2
          _ = getRelayServerOffset s hp := rfl

end Control

/-- C4 (amended): runRelayServers records RelayServerOffset[R]=resp.Offset
durably after applying the batch, as a separate write, not atomically
with it: after the full batch the next ServersReq presents resp.Offset,
and OffsetOldest when no offset was ever recorded; a crash anywhere
before the final offset write leaves the previous offset, so the next
ServersReq re-presents it and the batch is re-delivered -- ingestion is
at-least-once rather than exactly-once -- and re-applying the batch
leaves the key-value view of the relay-servers log unchanged. -/
theorem c4_relay_offset_resume (s : Control.ControlState) (hp : Control.HostPort)
    (resp : Control.ServersResp)
    (hch : ∀ ch ∈ resp.changes, ch.change ≠ Control.ChangeType.changeUnknown) :
    Control.getRelayServerOffset
        (Control.applyPrims s (Control.runRelayServersBatch hp resp)) hp = resp.offset
    ∧ (Logc.Get s.relayServerOffsets hp = none →
        Control.getRelayServerOffset s hp = Logc.OffsetOldest)
    ∧ (∀ k, k < (Control.runRelayServersBatch hp resp).length →
        Control.getRelayServerOffset
          (Control.applyPrims s ((Control.runRelayServersBatch hp resp).take k)) hp =
          Control.getRelayServerOffset s hp)
    ∧ (∀ key, Logc.Get (Control.applyPrims
          (Control.applyPrims s (Control.runRelayServersBatch hp resp))
          (Control.runRelayServersBatch hp resp)).relayServers key =
        Logc.Get (Control.applyPrims s (Control.runRelayServersBatch hp resp)).relayServers key) := by
  refine ⟨?_, ?_, ?_, ?_⟩
  · exact Control.getOffset_after_batch hp resp.offset resp.changes hch s
  · intro hnone
    rw [Control.getRelayServerOffset, hnone]
  · intro k hk
    exact Control.getOffset_crash_prefix hp resp.offset resp.changes hch s k hk
  · intro key
    rw [Control.applyPrims_relayServers, Control.applyPrims_relayServers]
    exact Control.get_append_idem s.relayServers
      (Control.serverWrites (Control.runRelayServersBatch hp resp)) key

/-- C4 (amended) witness: for the concrete batch of the counterexample
(one Put for forward web from relay r1, resp.Offset=1) applied to empty
state: the full loop body leaves offset 1; the empty state answers
OffsetOldest; every crash prefix keeps the previous offset; and the
double application agrees with the single one at the written key. -/
theorem c4_relay_offset_resume_witness :
    Control.getRelayServerOffset
        (Control.applyPrims ⟨[], []⟩ (Control.runRelayServersBatch "r1"
          ⟨[⟨"web", 7, Control.ChangeType.changePut⟩], 1⟩)) "r1" = 1
    ∧ (Logc.Get (⟨[], []⟩ : Control.ControlState).relayServerOffsets "r1" = none →
        Control.getRelayServerOffset (⟨[], []⟩ : Control.ControlState) "r1" = Logc.OffsetOldest)
    ∧ Logc.Get (Control.applyPrims
          (Control.applyPrims ⟨[], []⟩ (Control.runRelayServersBatch "r1"
            ⟨[⟨"web", 7, Control.ChangeType.changePut⟩], 1⟩))
          (Control.runRelayServersBatch "r1"
            ⟨[⟨"web", 7, Control.ChangeType.changePut⟩], 1⟩)).relayServers ⟨"web", "r1"⟩ =
        Logc.Get (Control.applyPrims ⟨[], []⟩ (Control.runRelayServersBatch "r1"
          ⟨[⟨"web", 7, Control.ChangeType.changePut⟩], 1⟩)).relayServers ⟨"web", "r1"⟩ := by
  have h := c4_relay_offset_resume ⟨[], []⟩ "r1"
    ⟨[⟨"web", 7, Control.ChangeType.changePut⟩], 1⟩ (by decide)
  exact ⟨h.1, h.2.1, h.2.2.2 ⟨"web", "r1"⟩⟩

namespace Client

theorem dinv_init : DInv initDState := by
  constructor
  · intro p hp
    simp [initDState] at hp
  · intro p hp
    simp [initDState] at hp

theorem dinv_step (s : DState) (e : DEvent) (hinv : DInv s) : DInv (applyDEvent s e) := by
  obtain ⟨hnd, hch⟩ := hinv
  cases e with
  | addServer name =>
    constructor
    · intro p hp
      rcases Assoc.mem_putKey_cases hp with h1 | h2
      · rw [h1]
        exact Assoc.nodupKeys_nil
      · exact hnd p h2
    · intro p hp q hq
      rcases Assoc.mem_putKey_cases hp with h1 | h2
      · rw [h1] at hq
        simp at hq
      · exact hch p h2 q hq
  | expect name key cert =>
    show DInv (expectConn s name key cert).1
    cases hvs : Assoc.lookupKey name s.servers with
    | none =>
      simp only [expectConn, hvs]
      exact ⟨hnd, hch⟩
    | some vs =>
      have hmem : (name, vs) ∈ s.servers := Assoc.mem_of_lookupKey_some hvs
      simp only [expectConn, hvs]
      constructor
      · intro p hp
        rcases Assoc.mem_putKey_cases hp with h1 | h2
        · rw [h1]
          exact Assoc.nodupKeys_putKey _ _ (hnd (name, vs) hmem)
        · exact hnd p h2
      · intro p hp q hq
        rcases Assoc.mem_putKey_cases hp with h1 | h2
        · rw [h1] at hq
          rcases Assoc.mem_putKey_cases hq with h3 | h4
          · rw [h3]
            show s.nextCh < s.nextCh + 1
            exact Nat.lt_succ_self _
          · have hq4 := hch (name, vs) hmem q h4
            show q.2.ch < s.nextCh + 1
            exact Nat.lt_succ_of_lt hq4
        · have hq2 := hch p h2 q hq
          show q.2.ch < s.nextCh + 1
          exact Nat.lt_succ_of_lt hq2
  | run name key =>
    show DInv (runConn s name key).1
    cases hvs : Assoc.lookupKey name s.servers with
    | none =>
      simp only [runConn, hvs]
      exact ⟨hnd, hch⟩
    | some vs =>
      have hmem : (name, vs) ∈ s.servers := Assoc.mem_of_lookupKey_some hvs
      cases hexp : Assoc.lookupKey key vs.clients with
      | none =>
        simp only [runConn, dequeue, hvs, hexp]
        exact ⟨hnd, hch⟩
      | some exp =>
        simp only [runConn, dequeue, hvs, hexp]
        constructor
        · intro p hp
          rcases Assoc.mem_putKey_cases hp with h1 | h2
          · rw [h1]
            exact Assoc.nodupKeys_eraseKey _ (hnd (name, vs) hmem)
          · exact hnd p h2
        · intro p hp q hq
          rcases Assoc.mem_putKey_cases hp with h1 | h2
          · rw [h1] at hq
            exact hch (name, vs) hmem q (Assoc.mem_eraseKey_subset hq)
          · exact hch p h2 q hq

theorem dinv_run (events : List DEvent) : DInv (runDEvents events) := by
  rw [runDEvents]
  have hgen : ∀ (evs : List DEvent) (s : DState), DInv s → DInv (evs.foldl applyDEvent s) := by
    intro evs
    induction evs with
    | nil => intro s hs; exact hs
    | cons e rest ih =>
      intro s hs
      rw [List.foldl_cons]
      exact ih _ (dinv_step s e hs)
  exact hgen events initDState dinv_init

end Client

/-- C10: in the client's DirectServer, every server's waiting map holds
at most one rendezvous channel per certificate key in any reachable
state; a second expectConn for the same key closes the prior channel
and replaces it with a fresh (distinct) one; and runConn dequeues the
waiter (removing it under the lock) before delivering the accepted
connection, closing with code 1 when the SNI is unknown and code 2 when
no waiter is registered -- so each accepted connection is delivered to
at most the one dequeued waiter. -/
theorem c10_direct_rendezvous (events : List Client.DEvent) (name : String)
    (key : Client.CertKey) (cert : Nat) :
    (∀ p ∈ (Client.runDEvents events).servers, Assoc.NodupKeys p.2.clients)
    ∧ (∀ vs exp,
        Assoc.lookupKey name (Client.runDEvents events).servers = some vs →
        Assoc.lookupKey key vs.clients = some exp →
        (Client.expectConn (Client.runDEvents events) name key cert).2 =
            some (Client.runDEvents events).nextCh
        ∧ exp.ch ∈ (Client.expectConn (Client.runDEvents events) name key cert).1.closed
        ∧ (∃ vs2, Assoc.lookupKey name
              (Client.expectConn (Client.runDEvents events) name key cert).1.servers = some vs2
            ∧ Assoc.lookupKey key vs2.clients =
                some ⟨cert, (Client.runDEvents events).nextCh⟩)
        ∧ exp.ch ≠ (Client.runDEvents events).nextCh)
    ∧ (Assoc.lookupKey name (Client.runDEvents events).servers = none →
        Client.runConn (Client.runDEvents events) name key =
          ((Client.runDEvents events), Client.ConnResult.closeWithError 1))
    ∧ (∀ vs, Assoc.lookupKey name (Client.runDEvents events).servers = some vs →
        Assoc.lookupKey key vs.clients = none →
        Client.runConn (Client.runDEvents events) name key =
          ((Client.runDEvents events), Client.ConnResult.closeWithError 2))
    ∧ (∀ vs exp, Assoc.lookupKey name (Client.runDEvents events).servers = some vs →
        Assoc.lookupKey key vs.clients = some exp →
        (Client.runConn (Client.runDEvents events) name key).2 =
            Client.ConnResult.delivered exp.ch
        ∧ (∃ vs2, Assoc.lookupKey name
              (Client.runConn (Client.runDEvents events) name key).1.servers = some vs2
            ∧ Assoc.lookupKey key vs2.clients = none)
        ∧ exp.ch ∈ (Client.runConn (Client.runDEvents events) name key).1.closed) := by
  obtain ⟨hnd, hch⟩ := Client.dinv_run events
  refine ⟨hnd, ?_, ?_, ?_, ?_⟩
  · intro vs exp hvs hexp
    have hmem : (name, vs) ∈ (Client.runDEvents events).servers :=
      Assoc.mem_of_lookupKey_some hvs
    have hqmem : (key, exp) ∈ vs.clients := Assoc.mem_of_lookupKey_some hexp
    have hlt : exp.ch < (Client.runDEvents events).nextCh := hch (name, vs) hmem (key, exp) hqmem
    simp only [Client.expectConn, hvs, hexp]
    refine ⟨?_, ?_, ?_, ?_⟩
    · trivial
    · simp
    · exact ⟨_, Assoc.lookupKey_putKey_self name _ _, Assoc.lookupKey_putKey_self key _ _⟩
    · exact Nat.ne_of_lt hlt
  · intro hnone
    simp [Client.runConn, hnone]
  · intro vs hvs hexp
    simp [Client.runConn, Client.dequeue, hvs, hexp]
  · intro vs exp hvs hexp
    have hmem : (name, vs) ∈ (Client.runDEvents events).servers :=
      Assoc.mem_of_lookupKey_some hvs
    simp only [Client.runConn, Client.dequeue, hvs, hexp]
    refine ⟨?_, ?_, ?_⟩
    · trivial
    · exact ⟨_, Assoc.lookupKey_putKey_self name _ _,
        Assoc.lookupKey_eraseKey_self key vs.clients (hnd (name, vs) hmem)⟩
    · simp

/-- C10 witness: after registering server srv and one waiter for key k
(channel 0), the theorem instantiates: a second expectConn returns the
fresh channel 1 (distinct from 0), and runConn dequeues and delivers to
channel 0. -/
theorem c10_direct_rendezvous_witness :
    (Client.expectConn (Client.runDEvents
        [Client.DEvent.addServer "srv", Client.DEvent.expect "srv" "k" 9])
        "srv" "k" 9).2 = some 1
    ∧ (Client.runConn (Client.runDEvents
          [Client.DEvent.addServer "srv", Client.DEvent.expect "srv" "k" 9]) "srv" "k").2 =
        Client.ConnResult.delivered 0
    ∧ (0 : Nat) ≠ 1 := by
  have h := c10_direct_rendezvous
    [Client.DEvent.addServer "srv", Client.DEvent.expect "srv" "k" 9] "srv" "k" 9
  have hvs : Assoc.lookupKey "srv" (Client.runDEvents
      [Client.DEvent.addServer "srv", Client.DEvent.expect "srv" "k" 9]).servers =
      some ⟨"srv", [("k", ⟨9, 0⟩)]⟩ := by decide
  have hexp : Assoc.lookupKey "k"
      (Client.VServer.mk "srv" [("k", ⟨9, 0⟩)]).clients = some ⟨9, 0⟩ := by decide
  have hnc : (Client.runDEvents
      [Client.DEvent.addServer "srv", Client.DEvent.expect "srv" "k" 9]).nextCh = 1 := by decide
  refine ⟨?_, ?_, by decide⟩
  · have h2 := h.2.1 _ _ hvs hexp
    rw [h2.1, hnc]
  · have h5 := h.2.2.2.2 _ _ hvs hexp
    exact h5.1

namespace Control

theorem initForwardsStep_view_ne (cache : List (Forward × List (HostPort × Cert)))
    (m : Logc.Message RelayServerKey Cert) (f : Forward) (h : HostPort)
    (hne : m.key ≠ (⟨f, h⟩ : RelayServerKey)) :
    rsView ⟨initForwardsStep cache m, 0⟩ f h = rsView ⟨cache, 0⟩ f h := by
  rcases hmk : m.key with ⟨kf, kh⟩
  simp only [rsView, initForwardsStep, hmk]
  by_cases hf : kf = f
  · subst hf
    have hh : kh ≠ h := by
      intro hc
      exact hne (by rw [hmk, hc])
    rw [Assoc.lookupKey_putKey_self, Option.getD_some, Assoc.lookupKey_putKey_ne _ _ _ _ hh]
  · rw [Assoc.lookupKey_putKey_ne _ _ _ _ hf]

theorem initForwardsStep_view_self (cache : List (Forward × List (HostPort × Cert)))
    (m : Logc.Message RelayServerKey Cert) :
    rsView ⟨initForwardsStep cache m, 0⟩ m.key.forward m.key.hostport =
      some (m.value.getD 0) := by
  rw [rsView, initForwardsStep, Assoc.lookupKey_putKey_self, Option.getD_some,
    Assoc.lookupKey_putKey_self]

theorem initCache_foldl_view_notin (f : Forward) (h : HostPort) :
    ∀ (ms : List (Logc.Message RelayServerKey Cert))
      (cache : List (Forward × List (HostPort × Cert))),
    (∀ m ∈ ms, m.key ≠ (⟨f, h⟩ : RelayServerKey)) →
    rsView ⟨ms.foldl initForwardsStep cache, 0⟩ f h = rsView ⟨cache, 0⟩ f h := by
  intro ms
  induction ms with
  | nil => intro cache _; rfl
  | cons m rest ih =>
    intro cache hne
    rw [List.foldl_cons]
    rw [ih _ (fun m2 hm2 => hne m2 (List.mem_cons.2 (Or.inr hm2)))]
    exact initForwardsStep_view_ne cache m f h (hne m (List.mem_cons.2 (Or.inl rfl)))

theorem initCache_foldl_view (f : Forward) (h : HostPort) :
    ∀ (ms : List (Logc.Message RelayServerKey Cert))
      (cache : List (Forward × List (HostPort × Cert))),
    ms.countP (fun m => decide (m.key = (⟨f, h⟩ : RelayServerKey))) ≤ 1 →
    rsView ⟨ms.foldl initForwardsStep cache, 0⟩ f h =
      match ms.find? (fun m => decide (m.key = (⟨f, h⟩ : RelayServerKey))) with
      | some m => some (m.value.getD 0)
      | none => rsView ⟨cache, 0⟩ f h := by
  intro ms
  induction ms with
  | nil => intro cache _; rfl
  | cons m rest ih =>
    intro cache hcount
    rw [List.foldl_cons]
    by_cases hp : m.key = (⟨f, h⟩ : RelayServerKey)
    · have hd : decide (m.key = (⟨f, h⟩ : RelayServerKey)) = true := decide_eq_true hp
      rw [List.countP_cons, hd, if_pos rfl] at hcount
      rw [List.find?_cons, hd]
      have hzero : rest.countP (fun m2 => decide (m2.key = (⟨f, h⟩ : RelayServerKey))) = 0 := by
        omega
      have hnotin : ∀ m2 ∈ rest, m2.key ≠ (⟨f, h⟩ : RelayServerKey) := by
        intro m2 hm2
        have hm0 := List.countP_eq_zero.1 hzero m2 hm2
        simpa using hm0
      rw [initCache_foldl_view_notin f h rest _ hnotin]
      have hf2 : m.key.forward = f := by rw [hp]
      have hh2 : m.key.hostport = h := by rw [hp]
      rw [← hf2, ← hh2]
      exact initForwardsStep_view_self cache m
    · have hd : decide (m.key = (⟨f, h⟩ : RelayServerKey)) = false := decide_eq_false hp
      rw [List.countP_cons, hd] at hcount
      simp only [Bool.false_eq_true, if_false] at hcount
      rw [List.find?_cons, hd]
      rw [ih _ (by omega)]
      cases hfind : rest.find? (fun m2 => decide (m2.key = (⟨f, h⟩ : RelayServerKey))) with
      | some m2 => rfl
      | none =>
        exact initForwardsStep_view_ne cache m f h hp

end Control

namespace Logc

theorem msgsFrom_getElem {K V : Type} (b : Nat) (recs : List (K × Option V)) (i : Nat) :
    (msgsFrom b recs)[i]? =
      (recs[i]?).map (fun r => (⟨b + i, r.1, r.2⟩ : Message K V)) := by
  induction recs generalizing b i with
  | nil => simp [msgsFrom]
  | cons r rest ih =>
    cases i with
    | zero => simp [msgsFrom]
    | succ i2 =>
      rw [msgsFrom]
      have h1 : ((⟨b, r.1, r.2⟩ : Message K V) :: msgsFrom (b + 1) rest)[i2 + 1]? =
          (msgsFrom (b + 1) rest)[i2]? := by simp
      have h2 : (r :: rest)[i2 + 1]? = rest[i2]? := by simp
      rw [h1, h2, ih (b + 1) i2]
      have harith : b + 1 + i2 = b + (i2 + 1) := by omega
      rw [harith]

end Logc

namespace Control

theorem initCache_wf (ms : List (Logc.Message RelayServerKey Cert)) :
    ∀ cache : List (Forward × List (HostPort × Cert)),
    Assoc.NodupKeys cache → (∀ p ∈ cache, Assoc.NodupKeys p.2) →
    Assoc.NodupKeys (ms.foldl initForwardsStep cache)
    ∧ ∀ p ∈ ms.foldl initForwardsStep cache, Assoc.NodupKeys p.2 := by
  induction ms with
  | nil => intro cache h1 h2; exact ⟨h1, h2⟩
  | cons m rest ih =>
    intro cache h1 h2
    rw [List.foldl_cons]
    apply ih
    · exact Assoc.nodupKeys_putKey _ _ h1
    · intro p hp
      rcases Assoc.mem_putKey_cases hp with hc1 | hc2
      · rw [hc1]
        have hsrvnd : Assoc.NodupKeys ((Assoc.lookupKey m.key.forward cache).getD []) := by
          cases hl : Assoc.lookupKey m.key.forward cache with
          | none => exact Assoc.nodupKeys_nil
          | some srv0 => exact h2 (m.key.forward, srv0) (Assoc.mem_of_lookupKey_some hl)
        exact Assoc.nodupKeys_putKey _ _ hsrvnd
      · exact h2 p hc2

theorem initRSState_wf (log : Logc.Log RelayServerKey Cert) : RSWf (initRSState log) := by
  have h := initCache_wf (Logc.Snapshot log).1 [] Assoc.nodupKeys_nil (by intro p hp; simp at hp)
  exact ⟨h.1, h.2⟩

theorem initRSState_view (log : Logc.Log RelayServerKey Cert) (f : Forward) (h : HostPort) :
    rsView (initRSState log) f h = Logc.Get log ⟨f, h⟩ := by
  have hv : rsView (initRSState log) f h =
      rsView ⟨initForwardsCache (Logc.Snapshot log).1, 0⟩ f h := rfl
  rw [hv, initForwardsCache]
  have hcount : (Logc.Snapshot log).1.countP
      (fun m => decide (m.key = (⟨f, h⟩ : RelayServerKey))) ≤ 1 := by
    rw [Logc.snapshot_countP]
    by_cases ha : Logc.specAlive log (⟨f, h⟩ : RelayServerKey) <;> simp [ha]
  rw [initCache_foldl_view f h _ [] hcount]
  cases hfind : (Logc.Snapshot log).1.find?
      (fun m => decide (m.key = (⟨f, h⟩ : RelayServerKey))) with
  | some m =>
    have hpm := List.find?_some hfind
    have hkey : m.key = (⟨f, h⟩ : RelayServerKey) := of_decide_eq_true hpm
    have hmem : m ∈ (Logc.Snapshot log).1 := List.mem_of_find?_eq_some hfind
    have hchar := (Logc.mem_snapshot_iff log m).1 hmem
    have hget : Logc.Get log (⟨f, h⟩ : RelayServerKey) = m.value := by
      rw [Logc.Get, ← hkey, hchar.1]
    rw [hget]
    obtain ⟨c, hc⟩ := Option.isSome_iff_exists.1 hchar.2
    show some (m.value.getD 0) = m.value
    simp [hc]
  | none =>
    have hnone : Logc.Get log (⟨f, h⟩ : RelayServerKey) = none := by
      cases hg : Logc.GetByKey log (⟨f, h⟩ : RelayServerKey) with
      | none => rw [Logc.Get, hg]
      | some m =>
        cases hv2 : m.value with
        | none => rw [Logc.Get, hg]; exact hv2
        | some c =>
          exfalso
          have hkey : m.key = (⟨f, h⟩ : RelayServerKey) := Logc.getByKeyFrom_key hg
          have hmem : m ∈ (Logc.Snapshot log).1 := (Logc.mem_snapshot_iff log m).2
            ⟨by rw [hkey]; exact hg, by rw [hv2]; rfl⟩
          exact (List.find?_eq_none.1 hfind m hmem) (decide_eq_true hkey)
    rw [hnone]
    rfl

end Control

namespace Control

theorem updateForwards_inv (L : Logc.Log RelayServerKey Cert) (s : RSState)
    (m : Logc.Message RelayServerKey Cert)
    (hwf : RSWf s)
    (hview : ∀ f h, rsView s f h = Logc.Get (L.take s.offset) ⟨f, h⟩)
    (hoff : m.offset = s.offset)
    (hrec : L[s.offset]? = some (m.key, m.value)) :
    RSWf (updateForwards s m)
    ∧ (updateForwards s m).offset = s.offset + 1
    ∧ ∀ f h, rsView (updateForwards s m) f h = Logc.Get (L.take (s.offset + 1)) ⟨f, h⟩ := by
  obtain ⟨hnd, hin⟩ := hwf
  have htake : L.take (s.offset + 1) = L.take s.offset ++ [(m.key, m.value)] := by
    rw [List.take_succ, hrec]
    rfl
  have hget2 : ∀ key : RelayServerKey, Logc.Get (L.take (s.offset + 1)) key =
      if m.key = key then m.value else Logc.Get (L.take s.offset) key := by
    intro key
    rw [htake, Logc.get_append_single]
  have hsrvnd : Assoc.NodupKeys ((Assoc.lookupKey m.key.forward s.cache).getD []) := by
    cases hl : Assoc.lookupKey m.key.forward s.cache with
    | none => exact Assoc.nodupKeys_nil
    | some srv0 => exact hin (m.key.forward, srv0) (Assoc.mem_of_lookupKey_some hl)
  have hsrveq : ∀ hh : HostPort,
      Assoc.lookupKey hh ((Assoc.lookupKey m.key.forward s.cache).getD []) =
        rsView s m.key.forward hh := fun _ => rfl
  cases hval : m.value with
  | some c =>
    refine ⟨?_, ?_, ?_⟩
    · constructor
      · simp only [updateForwards, hval]
        exact Assoc.nodupKeys_putKey _ _ hnd
      · intro p hp
        simp only [updateForwards, hval] at hp
        rcases Assoc.mem_putKey_cases hp with hc1 | hc2
        · rw [hc1]
          exact Assoc.nodupKeys_putKey _ _ hsrvnd
        · exact hin p hc2
    · simp only [updateForwards, hval]
      rw [hoff]
    · intro f h
      rw [hget2 ⟨f, h⟩, hval]
      simp only [updateForwards, hval, rsView]
      by_cases hf : m.key.forward = f
      · subst hf
        rw [Assoc.lookupKey_putKey_self, Option.getD_some]
        by_cases hh : m.key.hostport = h
        · subst hh
          rw [Assoc.lookupKey_putKey_self, if_pos rfl]
        · rw [Assoc.lookupKey_putKey_ne _ _ _ _ hh]
          rw [if_neg (fun hc => hh (congrArg RelayServerKey.hostport hc))]
          exact (hsrveq h).trans (hview m.key.forward h)
      · rw [Assoc.lookupKey_putKey_ne _ _ _ _ hf]
        rw [if_neg (fun hc => hf (congrArg RelayServerKey.forward hc))]
        exact hview f h
  | none =>
    refine ⟨?_, ?_, ?_⟩
    · constructor
      · simp only [updateForwards, hval]
        by_cases he : (Assoc.eraseKey m.key.hostport
            ((Assoc.lookupKey m.key.forward s.cache).getD [])).isEmpty
        · rw [if_pos he]
          exact Assoc.nodupKeys_eraseKey _ hnd
        · rw [if_neg he]
          exact Assoc.nodupKeys_putKey _ _ hnd
      · intro p hp
        simp only [updateForwards, hval] at hp
        by_cases he : (Assoc.eraseKey m.key.hostport
            ((Assoc.lookupKey m.key.forward s.cache).getD [])).isEmpty
        · rw [if_pos he] at hp
          exact hin p (Assoc.mem_eraseKey_subset hp)
        · rw [if_neg he] at hp
          rcases Assoc.mem_putKey_cases hp with hc1 | hc2
          · rw [hc1]
            exact Assoc.nodupKeys_eraseKey _ hsrvnd
          · exact hin p hc2
    · simp only [updateForwards, hval]
      rw [hoff]
    · intro f h
      rw [hget2 ⟨f, h⟩, hval]
      simp only [updateForwards, hval, rsView]
      by_cases hf : m.key.forward = f
      · subst hf
        by_cases he : (Assoc.eraseKey m.key.hostport
            ((Assoc.lookupKey m.key.forward s.cache).getD [])).isEmpty
        · have hsrv2 : Assoc.eraseKey m.key.hostport
              ((Assoc.lookupKey m.key.forward s.cache).getD []) = [] :=
            List.isEmpty_iff.1 he
          rw [if_pos he, Assoc.lookupKey_eraseKey_self _ _ hnd]
          by_cases hh : m.key.hostport = h
          · subst hh
            rw [if_pos rfl]
            rfl
          · rw [if_neg (fun hc => hh (congrArg RelayServerKey.hostport hc))]
            have hr : Logc.Get (L.take s.offset) (⟨m.key.forward, h⟩ : RelayServerKey) =
                Assoc.lookupKey h ((Assoc.lookupKey m.key.forward s.cache).getD []) :=
              ((hsrveq h).trans (hview m.key.forward h)).symm
            rw [hr, ← Assoc.lookupKey_eraseKey_ne m.key.hostport h
              ((Assoc.lookupKey m.key.forward s.cache).getD []) hh, hsrv2]
            rfl
        · rw [if_neg he, Assoc.lookupKey_putKey_self, Option.getD_some]
          by_cases hh : m.key.hostport = h
          · subst hh
            rw [Assoc.lookupKey_eraseKey_self _ _ hsrvnd, if_pos rfl]
          · rw [Assoc.lookupKey_eraseKey_ne _ _ _ hh]
            rw [if_neg (fun hc => hh (congrArg RelayServerKey.hostport hc))]
            exact (hsrveq h).trans (hview m.key.forward h)
      · by_cases he : (Assoc.eraseKey m.key.hostport
            ((Assoc.lookupKey m.key.forward s.cache).getD [])).isEmpty
        · rw [if_pos he, Assoc.lookupKey_eraseKey_ne _ _ _ hf]
          rw [if_neg (fun hc => hf (congrArg RelayServerKey.forward hc))]
          exact hview f h
        · rw [if_neg he, Assoc.lookupKey_putKey_ne _ _ _ _ hf]
          rw [if_neg (fun hc => hf (congrArg RelayServerKey.forward hc))]
          exact hview f h

end Control

namespace Control

theorem runForwardsTrace_inv (L : Logc.Log RelayServerKey Cert) (n0 : Nat)
    (hn : n0 ≤ L.length) :
    ∀ i, RSWf (runForwardsTrace L n0 i)
    ∧ (runForwardsTrace L n0 i).offset = n0 + min i (L.length - n0)
    ∧ ∀ f h, rsView (runForwardsTrace L n0 i) f h =
        Logc.Get (L.take (runForwardsTrace L n0 i).offset) ⟨f, h⟩ := by
  intro i
  induction i with
  | zero =>
    have htr : runForwardsTrace L n0 0 = initRSState (L.take n0) := rfl
    have hofflen : (initRSState (L.take n0)).offset = n0 := by
      show (L.take n0).length = n0
      rw [List.length_take]
      exact Nat.min_eq_left hn
    refine ⟨?_, ?_, ?_⟩
    · rw [htr]
      exact initRSState_wf _
    · rw [htr, hofflen]
      omega
    · intro f h
      rw [htr, hofflen, initRSState_view]
  | succ i ih =>
    obtain ⟨hwf, hoffi, hviewi⟩ := ih
    have hlend : ((Logc.msgsOf L).drop n0).length = L.length - n0 := by
      rw [List.length_drop, Logc.msgsOf_length]
    by_cases hi : n0 + i < L.length
    · have hgetd : ((Logc.msgsOf L).drop n0)[i]? = (Logc.msgsOf L)[n0 + i]? :=
        List.getElem?_drop _ n0 i
      obtain ⟨r, hr⟩ : ∃ r, L[n0 + i]? = some r :=
        ⟨L[n0 + i], List.getElem?_eq_getElem hi⟩
      have hm : (Logc.msgsOf L)[n0 + i]? =
          some (⟨n0 + i, r.1, r.2⟩ : Logc.Message RelayServerKey Cert) := by
        rw [Logc.msgsOf, Logc.msgsFrom_getElem, hr]
        simp
      have htake1 : ((Logc.msgsOf L).drop n0).take (i + 1) =
          ((Logc.msgsOf L).drop n0).take i ++
            [(⟨n0 + i, r.1, r.2⟩ : Logc.Message RelayServerKey Cert)] := by
        rw [List.take_succ, hgetd, hm]
        rfl
      have hstep : runForwardsTrace L n0 (i + 1) =
          updateForwards (runForwardsTrace L n0 i)
            (⟨n0 + i, r.1, r.2⟩ : Logc.Message RelayServerKey Cert) := by
        rw [runForwardsTrace, runForwardsTrace, htake1, List.foldl_append]
        rfl
      have hmin : min i (L.length - n0) = i := Nat.min_eq_left (by omega)
      have hoffeq : (⟨n0 + i, r.1, r.2⟩ : Logc.Message RelayServerKey Cert).offset =
          (runForwardsTrace L n0 i).offset := by
        rw [hoffi, hmin]
      have hreceq : L[(runForwardsTrace L n0 i).offset]? =
          some ((⟨n0 + i, r.1, r.2⟩ : Logc.Message RelayServerKey Cert).key,
            (⟨n0 + i, r.1, r.2⟩ : Logc.Message RelayServerKey Cert).value) := by
        rw [hoffi, hmin]
        show L[n0 + i]? = some (r.1, r.2)
        rw [hr]
      have hupd := updateForwards_inv L (runForwardsTrace L n0 i)
        (⟨n0 + i, r.1, r.2⟩ : Logc.Message RelayServerKey Cert) hwf hviewi hoffeq hreceq
      refine ⟨?_, ?_, ?_⟩
      · rw [hstep]
        exact hupd.1
      · rw [hstep, hupd.2.1, hoffi]
        omega
      · intro f h
        rw [hstep, hupd.2.1]
        exact hupd.2.2 f h
    · have hle : ((Logc.msgsOf L).drop n0).length ≤ i := by omega
      have hle1 : ((Logc.msgsOf L).drop n0).length ≤ i + 1 := by omega
      have htr : runForwardsTrace L n0 (i + 1) = runForwardsTrace L n0 i := by
        rw [runForwardsTrace, runForwardsTrace, List.take_of_length_le hle,
          List.take_of_length_le hle1]
      refine ⟨htr ▸ hwf, ?_, ?_⟩
      · rw [htr, hoffi]
        omega
      · intro f h
        rw [htr]
        exact hviewi f h

end Control

/-- C6: the Forwards index advances its forwardsOffset only together
with (after) the corresponding map mutation, each inside one critical
section; consequently at every observable point of relayServer.run --
after the initial Snapshot-built state and after each consumed record
is applied -- a getForward read returning watermark N returns a map
that reflects exactly the relay-servers records with offset below N for
the requested forward: puts present unless later overwritten or
deleted, deletes absorbed. -/
theorem c6_forwards_watermark (L : Logc.Log Control.RelayServerKey Control.Cert)
    (n0 : Nat) (hn : n0 ≤ L.length) (i : Nat) (f : Control.Forward)
    (hp : Control.HostPort) :
    Assoc.lookupKey hp (Control.getForward (Control.runForwardsTrace L n0 i) f).1 =
      Logc.Get (L.take (Control.getForward (Control.runForwardsTrace L n0 i) f).2)
        ⟨f, hp⟩ := by
  exact (Control.runForwardsTrace_inv L n0 hn i).2.2 f hp

/-- C6 witness: over the concrete relay-servers log Put((web,r1),5);
Del((web,r1)); Put((api,r2),6) with snapshot prefix 2 and one record
consumed, the index answer for (web, r1) equals the log view below the
returned watermark. -/
theorem c6_forwards_watermark_witness :
    (2 : Nat) ≤ ([((⟨"web", "r1"⟩ : Control.RelayServerKey), some 5), (⟨"web", "r1"⟩, none),
        (⟨"api", "r2"⟩, some 6)] : Logc.Log Control.RelayServerKey Control.Cert).length
    ∧ Assoc.lookupKey "r1"
        (Control.getForward (Control.runForwardsTrace
          ([((⟨"web", "r1"⟩ : Control.RelayServerKey), some 5), (⟨"web", "r1"⟩, none),
            (⟨"api", "r2"⟩, some 6)] : Logc.Log Control.RelayServerKey Control.Cert) 2 1)
          "web").1 =
      Logc.Get (([((⟨"web", "r1"⟩ : Control.RelayServerKey), some 5), (⟨"web", "r1"⟩, none),
            (⟨"api", "r2"⟩, some 6)] : Logc.Log Control.RelayServerKey Control.Cert).take
          (Control.getForward (Control.runForwardsTrace
            ([((⟨"web", "r1"⟩ : Control.RelayServerKey), some 5), (⟨"web", "r1"⟩, none),
              (⟨"api", "r2"⟩, some 6)] : Logc.Log Control.RelayServerKey Control.Cert) 2 1)
            "web").2) ⟨"web", "r1"⟩ := by
  refine ⟨by decide, ?_⟩
  exact c6_forwards_watermark _ 2 (by decide) 1 "web" "r1"
